import Mathlib

/-!
# Verification of the vcd-merger core (src/main.rs)

This file gives a shallow embedding of the merge engine of the `vcd-merger`
repository: the `IdCode` allocator (`next_code`), the numeric helpers
(`parse_u64`, `u64_to_bytes`, `gcd`), the header parser (tokenisation over a
byte cursor, directive dispatch, timescale parsing), the section finder and
the heap-driven merge writer.  Bytes are modelled as `Nat`, byte strings as
`List Nat`, and the panicking paths of the Rust code as `Option`/`Except`
failures or explicit abort results.  Loops whose termination is not
structural are given an explicit fuel argument so that all definitions
compute by kernel reduction.
-/

namespace VcdMerger

/-- Bytes of an ASCII string literal. -/
def s2b (s : String) : List Nat := s.data.map Char.toNat

/-- `u8::is_ascii_digit`. -/
def isDigit (b : Nat) : Bool := 48 ≤ b && b ≤ 57

/-- ASCII whitespace, as recognised by `str::split_ascii_whitespace`
(space, tab, newline, form feed, carriage return). -/
def isWs (b : Nat) : Bool := b == 32 || b == 9 || b == 10 || b == 12 || b == 13

/-! ## `parse_u64` (src/main.rs:323-332)

```rust
fn parse_u64(s: &[u8]) -> Result<u64, ()> {
    let mut value = 0;
    for &b in s {
        if !b.is_ascii_digit() { return Err(()); }
        value = value * 10 + (b - b'0') as u64;
    }
    Ok(value)
}
``` -/

/-- The accumulator loop of `parse_u64`. -/
def parse_u64_go (acc : Nat) : List Nat → Except Unit Nat
  | [] => .ok acc
  | b :: rest =>
    if isDigit b then parse_u64_go (acc * 10 + (b - 48)) rest
    else .error ()

/-- `parse_u64`: decimal parse of a byte slice; `Err` on any non-digit byte. -/
def parse_u64 (s : List Nat) : Except Unit Nat := parse_u64_go 0 s

/-! ## `u64_to_bytes` (src/main.rs:334-342)

```rust
fn u64_to_bytes(mut value: u64, buffer: &mut [u8; 20]) -> &[u8] {
    let mut i = buffer.len();
    while value > 0 {
        i -= 1;
        buffer[i] = (value % 10) as u8 + b'0';
        value /= 10;
    }
    &buffer[i..]
}
```

The loop builds the digit string from the least significant digit leftwards;
the returned slice contains exactly the digits written.  We model the loop
with a fuel argument (`value` itself is a sufficient bound on the number of
iterations, since `value / 10 < value` for positive `value`). -/

def u64go : Nat → Nat → List Nat → List Nat
  | 0, _, acc => acc
  | fuel + 1, value, acc =>
    if value = 0 then acc
    else u64go fuel (value / 10) ((value % 10 + 48) :: acc)

/-- `u64_to_bytes`: the digit bytes written by the Rust loop
(note: the empty list for `value = 0`, since the loop body never runs). -/
def u64_to_bytes (value : Nat) : List Nat := u64go value value []

/-! ## `next_code` (src/main.rs:105-126)

```rust
fn next_code() -> IdCode {
    static CURR_CODE: Mutex<IdCode> = Mutex::new(IdCode([0; 4]));
    let mut code = CURR_CODE.lock().unwrap();
    for b in code.0.iter_mut() {
        if *b == 0x0 { *b = 0x21; break; }
        if *b < 0x7E { *b += 1; break; }
        else { *b = 0x21; }
    }
    *code
}
```

The state is a 4-byte little-endian odometer; `next_code` advances it and
returns the new state.  `bump` is the state transition of one call. -/

/-- One call of `next_code`: advance the 4-byte odometer (the returned
`IdCode` is the post-increment state). -/
def bump : List Nat → List Nat
  | [] => []
  | b :: rest =>
    if b = 0 then 0x21 :: rest
    else if b < 0x7E then (b + 1) :: rest
    else 0x21 :: bump rest

/-- The allocator state (= the code returned) after `k` calls of
`next_code`, starting from the all-zero initial state. -/
def codeSeq (k : Nat) : List Nat := bump^[k] [0, 0, 0, 0]

/-! ## `gcd` (src/main.rs:290-299)

```rust
fn gcd(mut n: u64, mut m: u64) -> u64 {
    assert!(n != 0 && m != 0);
    while m != 0 {
        if m < n { (m, n) = (n, m); }
        m %= n;
    }
    n
}
```

One loop iteration maps `(n, m)` to `(m, n % m)` when `m < n` and to
`(n, m % n)` otherwise.  The `n = 0` guard below is unreachable under the
`assert` (the callers only pass positive timescales); it is needed only to
make the Lean recursion terminate. -/

def gcd_code (n m : Nat) : Nat :=
  if m = 0 then n
  else if m < n then gcd_code m (n % m)
  else if n = 0 then 0
  else gcd_code n (m % n)
termination_by m
decreasing_by
  · exact Nat.mod_lt _ (Nat.pos_of_ne_zero (by omega))
  · exact Nat.lt_of_lt_of_le (Nat.mod_lt _ (Nat.pos_of_ne_zero (by omega))) (by omega)

/-! ## IdCode (src/main.rs:9-29)

An `IdCode` is a 4-byte zero-padded buffer.  `IdCode::from(&[u8])` copies
the slice into the buffer; a slice longer than 4 bytes makes the Rust code
panic with an out-of-bounds index.  `as_bytes` returns the prefix before
the first zero byte. -/

/-- `IdCode::from(&[u8])`: pad to 4 bytes, `none` models the
index-out-of-bounds panic for slices longer than 4 bytes. -/
def idFrom (s : List Nat) : Option (List Nat) :=
  if s.length ≤ 4 then some (s ++ List.replicate (4 - s.length) 0) else none

/-- `IdCode::as_bytes`: the bytes before the first zero. -/
def idBytes (code : List Nat) : List Nat := code.takeWhile (fun b => b ≠ 0)

/-! ## Timescale parsing (src/main.rs:176-200)

The `$timescale` directive body (as produced by `take_to_end`, i.e. the
tokens joined with single trailing spaces) is scanned for the first digit,
then the first following non-digit, then the first occurrence of one of the
characters `f p n m s` — note that `'u'` is *not* in this list.  The digit
run is parsed and multiplied according to the two bytes starting at the
found unit character. -/

/-- The timescale computation of the `$timescale` arm of `parse_headers`.
`none` models the `expect("invalid timestamp")` / `panic!` paths. -/
def timescaleOf (scale : List Nat) : Option Nat :=
  match scale.findIdx? (fun b => isDigit b) with
  | none => none
  | some n =>
    match (scale.drop n).findIdx? (fun b => ¬ isDigit b) with
    | none => none
    | some e =>
      match (scale.drop (n + e)).findIdx?
          (fun b => b = 102 || b = 112 || b = 110 || b = 109 || b = 115) with
      | none => none
      | some u =>
        match parse_u64 ((scale.drop n).take e) with
        | .error _ => none
        | .ok number =>
          match (scale.drop (n + e + u)).take 2 with
          | [102, 115] => some number                               -- "fs"
          | [112, 115] => some (number * 1000)                      -- "ps"
          | [110, 115] => some (number * 1000000)                   -- "ns"
          | [117, 115] => some (number * 1000000000)                -- "us" (dead: 117 is never the found byte)
          | [109, 115] => some (number * 1000000000000)             -- "ms"
          | [115, _] => some (number * 1000000000000000)            -- [b's', _]
          | _ => none

/-! ## Timescale reconciliation (src/main.rs:261-268)

```rust
let gcd = vcds.iter().map(|vcd| vcd.timescale).fold(vcds[0].timescale, gcd);
for vcd in &mut vcds { vcd.timescale /= gcd; }
``` -/

/-- The reconciler: the folded gcd of all input timescales (seeded with the
first one, which the fold also revisits), and the per-input multipliers.
The empty case models the `vcds[0]` panic on no inputs (unreachable: `main`
requires at least one input). -/
def reconcile (fs : List Nat) : Nat × List Nat :=
  match fs with
  | [] => (0, [])
  | f0 :: _ =>
    let g := fs.foldl gcd_code f0
    (g, fs.map (fun f => f / g))

/-! ## The prelude tokeniser (src/main.rs:146-154)

`parse_headers` reads the input through a `Cursor` with
`reader.lines()` (each call consumes one full line, including its
terminating newline, and strips `\n` and a preceding `\r`) and flat-maps
each line through `split_ascii_whitespace`.  Tokens are served from the
buffered word list of the most recently consumed line; the cursor position
is therefore always at the byte *after* that line. -/

/-- The word-accumulation loop of `split_ascii_whitespace`. -/
def splitWsGo (acc : List Nat) : List Nat → List (List Nat)
  | [] => if acc = [] then [] else [acc.reverse]
  | b :: rest =>
    if isWs b then
      if acc = [] then splitWsGo [] rest else acc.reverse :: splitWsGo [] rest
    else splitWsGo (b :: acc) rest

/-- `str::split_ascii_whitespace` on a byte string. -/
def splitWs (s : List Nat) : List (List Nat) := splitWsGo [] s

/-- `str::trim` (on ASCII input): strip leading and trailing whitespace. -/
def trimBytes (s : List Nat) : List Nat :=
  ((s.dropWhile isWs).reverse.dropWhile isWs).reverse

/-- One `BufRead::lines` step on `bytes` at cursor position `pos`:
`none` at end of input, otherwise the line content (without `\n`, and
without a trailing `\r`) and the position just past the line. -/
def readLine (bytes : List Nat) (pos : Nat) : Option (List Nat × Nat) :=
  match bytes.drop pos with
  | [] => none
  | b :: more =>
    let raw := (b :: more).takeWhile (fun x => x ≠ 10)
    let after := (b :: more).dropWhile (fun x => x ≠ 10)
    let pos' := pos + raw.length + (if after.isEmpty then 0 else 1)
    let line := if raw.getLast? = some 13 then raw.dropLast else raw
    some (line, pos')

/-- The token-stream state: the input bytes, the cursor position (always
just past the last consumed line) and the words of that line not yet
served. -/
structure TokSt where
  bytes : List Nat
  pos : Nat
  buf : List (List Nat)
deriving DecidableEq, Repr

/-- Token refill loop: serve the next buffered word, or consume lines until
one yields a word.  The fuel is an upper bound on the number of lines
consumed; `nextToken` instantiates it so that it never runs out. -/
def ntGo : Nat → TokSt → Option (List Nat × TokSt)
  | 0, _ => none
  | fuel + 1, st =>
    match st.buf with
    | t :: ts => some (t, ⟨st.bytes, st.pos, ts⟩)
    | [] =>
      match readLine st.bytes st.pos with
      | none => none
      | some (line, pos') =>
        match splitWs line with
        | t :: ts => some (t, ⟨st.bytes, pos', ts⟩)
        | [] => ntGo fuel ⟨st.bytes, pos', []⟩

/-- The next token of the flat-mapped `lines` iterator (src/main.rs:150-154).
Each `readLine` advances the position by at least one byte, so
`bytes.length + 1` rounds of `ntGo` always suffice. -/
def nextToken (st : TokSt) : Option (List Nat × TokSt) :=
  ntGo (st.bytes.length + 1) st

/-! ## `take_to_end` (src/main.rs:128-138)

```rust
fn take_to_end(tokens: &mut impl Iterator<Item = String>) -> String {
    let mut scale = String::with_capacity(8);
    for token in tokens.by_ref() {
        if token == "$end" { break; }
        scale.push_str(&token);
        scale.push(' ');
    }
    scale
}
``` -/

/-- `take_to_end`: concatenate tokens, each followed by one space, until
`$end` or end of input.  One token is consumed per fuel unit. -/
def take_to_end_go (acc : List Nat) : Nat → TokSt → List Nat × TokSt
  | 0, st => (acc, st)
  | fuel + 1, st =>
    match nextToken st with
    | none => (acc, st)
    | some (tok, st') =>
      if tok = s2b "$end" then (acc, st')
      else take_to_end_go (acc ++ tok ++ [32]) fuel st'

/-- `take_to_end` with explicit fuel. -/
def take_to_end (fuel : Nat) (st : TokSt) : List Nat × TokSt :=
  take_to_end_go [] fuel st

/-! ## The header-parsing loop of `parse_headers` (src/main.rs:140-259)

The state accumulated per input: the shared output `Header` (first-wins
`date` and `version`), the input's `symbol_map` (an association list of
zero-padded old `IdCode`s to fresh ones), the re-emittable declaration
lines, the process-wide allocator state and the input's femtosecond
timescale (0 = not yet seen). -/

structure HeaderM where
  date : Option (List Nat)
  version : Option (List Nat)
deriving DecidableEq, Repr

structure HdrSt where
  tok : TokSt
  hdr : HeaderM
  smap : List (List Nat × List Nat)
  decls : List (List Nat)
  alloc : List Nat
  timescale : Nat
deriving DecidableEq, Repr

/-- `symbol_map.entry(old).or_insert_with(next_code)`
(`fxhash` map modelled as an association list). -/
def getOrInsert (smap : List (List Nat × List Nat)) (alloc old : List Nat) :
    List Nat × List (List Nat × List Nat) × List Nat :=
  match smap.lookup old with
  | some new => (new, smap, alloc)
  | none =>
    let alloc' := bump alloc
    (alloc', smap ++ [(old, alloc')], alloc')

/-- The `while let Some(token) = tokens.next()` dispatch loop.  Returns the
final state together with `end_of_definitions`, which the Rust code takes
from `reader.position()` at loop exit; `none` models the panicking paths
(`unwrap` on a missing token, a malformed `$timescale`, `assert_eq!`
failures, an over-long `IdCode`). -/
def headerLoop : Nat → HdrSt → Option (HdrSt × Nat)
  | 0, _ => none
  | fuel + 1, st =>
    match nextToken st.tok with
    | none => some (st, st.tok.pos)
    | some (tok, t1) =>
      if tok = s2b "$date" then
        let (date, t2) := take_to_end fuel t1
        let hdr' := if st.hdr.date = none then ⟨some date, st.hdr.version⟩ else st.hdr
        headerLoop fuel ⟨t2, hdr', st.smap, st.decls, st.alloc, st.timescale⟩
      else if tok = s2b "$version" then
        let (ver, t2) := take_to_end fuel t1
        let hdr' := if st.hdr.version = none then ⟨st.hdr.date, some ver⟩ else st.hdr
        headerLoop fuel ⟨t2, hdr', st.smap, st.decls, st.alloc, st.timescale⟩
      else if tok = s2b "$timescale" then
        let (scale, t2) := take_to_end fuel t1
        match timescaleOf scale with
        | none => none
        | some ts => headerLoop fuel ⟨t2, st.hdr, st.smap, st.decls, st.alloc, ts⟩
      else if tok = s2b "$scope" then
        match nextToken t1 with
        | none => none
        | some (module, t2) =>
          match nextToken t2 with
          | none => none
          | some (name, t3) =>
            match nextToken t3 with
            | none => none
            | some (e, t4) =>
              if e = s2b "$end" then
                let d := s2b "$scope " ++ module ++ [32] ++ name ++ s2b " $end\n"
                headerLoop fuel ⟨t4, st.hdr, st.smap, st.decls ++ [d], st.alloc, st.timescale⟩
              else none
      else if tok = s2b "$var" then
        match nextToken t1 with
        | none => none
        | some (ty, t2) =>
          match nextToken t2 with
          | none => none
          | some (width, t3) =>
            match nextToken t3 with
            | none => none
            | some (oldTok, t4) =>
              let (name, t5) := take_to_end fuel t4
              match idFrom oldTok with
              | none => none
              | some old =>
                let (newId, smap', alloc') := getOrInsert st.smap st.alloc old
                let d := s2b "$var " ++ ty ++ [32] ++ width ++ [32] ++
                  idBytes newId ++ [32] ++ trimBytes name ++ s2b " $end\n"
                headerLoop fuel ⟨t5, st.hdr, smap', st.decls ++ [d], alloc', st.timescale⟩
      else if tok = s2b "$upscope" then
        match nextToken t1 with
        | none => none
        | some (e, t2) =>
          if e = s2b "$end" then
            headerLoop fuel ⟨t2, st.hdr, st.smap, st.decls ++ [s2b "$upscope $end\n"], st.alloc, st.timescale⟩
          else none
      else if tok = s2b "$enddefinitions" then
        match nextToken t1 with
        | none => none
        | some (e, t2) =>
          if e = s2b "$end" then some (⟨t2, st.hdr, st.smap, st.decls, st.alloc, st.timescale⟩, t2.pos)
          else none
      else
        -- `$dumpvars` and any unrecognised token both break the loop; the
        -- cursor already sits just past the line that produced the token.
        some (⟨t1, st.hdr, st.smap, st.decls, st.alloc, st.timescale⟩, t1.pos)

/-- The per-input record assembled by `parse_headers` (declarations,
symbol map, `end_of_definitions`, femtosecond timescale) plus the shared
header and allocator state.  `none` models the panics, including
`missing timescale`. -/
def parseVcdOne (fuel : Nat) (bytes : List Nat) (hdr : HeaderM) (alloc : List Nat) :
    Option (HdrSt × Nat) :=
  match headerLoop fuel ⟨⟨bytes, 0, []⟩, hdr, [], [], alloc, 0⟩ with
  | none => none
  | some (st, eod) => if st.timescale = 0 then none else some (st, eod)

/-! ## Lines of a body slice

`find_sections` and `write_output` both traverse byte slices with
`split(|&b| b == b'\n')`, which yields `n + 1` pieces for `n` separators
(so a trailing newline produces a final empty piece). -/

/-- `slice::split` on `\n`. -/
def splitNl : List Nat → List (List Nat)
  | [] => [[]]
  | b :: rest =>
    if b = 10 then [] :: splitNl rest
    else
      match splitNl rest with
      | [] => [[b]]
      | p :: ps => (b :: p) :: ps

/-! ## `find_sections` (src/main.rs:346-406)

Per input, scan the body lines; on each `#` line parse the value and scale
it by the input's (already reconciled) `timescale`.  A strictly decreasing
scaled value closes the current section just before the regressing line (so
the closed byte slice ends with `\n`, i.e. its line split carries a final
empty piece); the final section extends to the end of the file.  Lines
before the first `#` line belong to no section.  The scan state is
`(section_first_value, last_value, reversed accumulated lines)`. -/

/-- A section: its first scaled timestamp, its lines, and the index of its
owning input (the Rust `Section` holds `value`, the byte slice, and a
reference to the owning `Vcd`). -/
structure Sect where
  value : Nat
  lines : List (List Nat)
  owner : Nat
deriving DecidableEq, Repr

/-- The per-input scan loop of `find_sections`.  `none` models the
`parse_u64(..).unwrap()` panic on a non-digit timestamp byte. -/
def findSecGo (m owner : Nat) :
    List (List Nat) → Option (Nat × Nat × List (List Nat)) → Option (List Sect)
  | [], none => some []
  | [], some (v, _, acc) => some [⟨v, acc.reverse, owner⟩]
  | line :: rest, cur =>
    if line.head? = some 35 then
      match parse_u64 (line.drop 1) with
      | .error _ => none
      | .ok n =>
        let t := n * m
        match cur with
        | none => findSecGo m owner rest (some (t, t, [line]))
        | some (v, last, acc) =>
          if t < last then
            match findSecGo m owner rest (some (t, t, [line])) with
            | none => none
            | some ss => some (⟨v, acc.reverse ++ [[]], owner⟩ :: ss)
          else findSecGo m owner rest (some (v, t, line :: acc))
    else
      match cur with
      | none => findSecGo m owner rest cur
      | some (v, last, acc) => findSecGo m owner rest (some (v, last, line :: acc))

/-- A parsed input as the merge stages see it: the reconciled timescale
multiplier, the symbol map, and the body bytes (`file[end_of_definitions..]`). -/
structure VcdM where
  m : Nat
  smap : List (List Nat × List Nat)
  body : List Nat
deriving DecidableEq, Repr

/-- `find_sections` over the input list, in input order (`owner` is the
input's position in the list). -/
def findSectionsGo : Nat → List VcdM → Option (List Sect)
  | _, [] => some []
  | i, v :: rest =>
    match findSecGo v.m i (splitNl v.body) none with
    | none => none
    | some ss =>
      match findSectionsGo (i + 1) rest with
      | none => none
      | some ss' => some (ss ++ ss')

/-- All sections of all inputs, in input-then-file order. -/
def findSections (vcds : List VcdM) : Option (List Sect) := findSectionsGo 0 vcds

/-! ## `write_output` body merge (src/main.rs:442-540)

The heap is a `BinaryHeap` of `Reverse((section_value, section_index))`:
its top is the entry with the lexicographically least `(value, index)`
pair.  We model the heap as a plain list of cursor entries and take the
minimum explicitly; an entry carries the data the Rust loop reads through
`sections[index]` and `section.vcd` (current value, stable index, owning
input, timescale multiplier, symbol map, remaining lines).  Output lines
carry ghost provenance fields (`owner`, `idx`, `tsv`) used only to state
theorems; `renderOut` erases them to the actual emitted bytes. -/

structure Entry where
  value : Nat
  idx : Nat
  owner : Nat
  m : Nat
  smap : List (List Nat × List Nat)
  lines : List (List Nat)
deriving DecidableEq, Repr

inductive OutLine where
  | ts (v : Nat)
  | change (owner idx tsv : Nat) (bytes : List Nat)
deriving DecidableEq, Repr

/-- Translation of a `b…`/`r…` value-change line (src/main.rs:498-516):
split after the first space, look the identifier up, re-emit with the new
identifier.  `none` models the panics (no space, over-long or unmapped
identifier). -/
def translateBR (smap : List (List Nat × List Nat)) (line : List Nat) : Option (List Nat) :=
  match line.findIdx? (fun b => b = 32) with
  | none => none
  | some pos =>
    let name := line.take (pos + 1)
    let symbol := line.drop (pos + 1)
    match idFrom symbol with
    | none => none
    | some old =>
      match smap.lookup old with
      | none => none
      | some new => some (name ++ idBytes new)

/-- Translation of a scalar value-change line (src/main.rs:523-531): first
byte is the value, the rest is the identifier. -/
def translateScalar (smap : List (List Nat × List Nat)) (line : List Nat) : Option (List Nat) :=
  let value := line.take 1
  let symbol := line.drop 1
  match idFrom symbol with
  | none => none
  | some old =>
    match smap.lookup old with
    | none => none
    | some new => some (value ++ idBytes new)

/-- Result of consuming a section's lines after its leading timestamp line:
either a new timestamp line was reached (`next`, with the rescaled value
and the remaining lines starting at that line), or the section is exhausted
(`done`), or a panic path was hit (`abort`; the process dies, output
written so far stands). -/
inductive CRes where
  | next (outs : List OutLine) (v : Nat) (lines : List (List Nat))
  | done (outs : List OutLine)
  | abort (outs : List OutLine)
deriving DecidableEq, Repr

/-- Prepend an emitted line to a consume result. -/
def cresCons (o : OutLine) : CRes → CRes
  | .next outs v ls => .next (o :: outs) v ls
  | .done outs => .done (o :: outs)
  | .abort outs => .abort (o :: outs)

/-- The `for line in lines` loop of `write_output` (src/main.rs:472-533),
for one section with current scaled timestamp `ts`.  Branch order follows
the Rust `match`: `#…`, `b…`/`r…`, `$…`, empty, scalar. -/
def consume (owner idx m : Nat) (smap : List (List Nat × List Nat)) (ts : Nat) :
    List (List Nat) → CRes
  | [] => .done []
  | line :: rest =>
    if line.head? = some 35 then
      match parse_u64 (line.drop 1) with
      | .error _ => .abort []
      | .ok n => .next [] (n * m) (line :: rest)
    else if line.head? = some 98 ∨ line.head? = some 114 then
      match translateBR smap line with
      | none => .abort []
      | some out => cresCons (.change owner idx ts out) (consume owner idx m smap ts rest)
    else if line.head? = some 36 then consume owner idx m smap ts rest
    else if line = [] then consume owner idx m smap ts rest
    else
      match translateScalar smap line with
      | none => .abort []
      | some out => cresCons (.change owner idx ts out) (consume owner idx m smap ts rest)

/-- The heap order: `Reverse((value, index))` makes the top of the Rust
`BinaryHeap` the entry with the least `(value, index)` pair. -/
def keyLe (a b : Entry) : Bool :=
  a.value < b.value || (a.value = b.value && a.idx ≤ b.idx)

/-- Extract the heap minimum (`heap.peek_mut()`) and the remaining entries. -/
def pickMin : List Entry → Option (Entry × List Entry)
  | [] => none
  | e :: es =>
    match pickMin es with
    | none => some (e, [])
    | some (mn, rest) => if keyLe e mn then some (e, es) else some (mn, e :: rest)

/-- The `#ts` header write of one loop iteration (src/main.rs:461-467):
emitted only when the peeked value differs from `last_timestamp`. -/
def tsHeader (last : Option Nat) (v : Nat) : List OutLine :=
  if last = some v then [] else [OutLine.ts v]

/-- The `'sections` loop of `write_output`: peek the least entry, emit its
`#ts` header unless it repeats `last_timestamp`, consume its lines; on a
new timestamp line update the entry in place and re-enter, on exhaustion
pop it.  Fuel bounds the number of loop iterations (each iteration consumes
at least the peeked section's leading timestamp line). -/
def mergeRun : Nat → List Entry → Option Nat → List OutLine
  | 0, _, _ => []
  | fuel + 1, heap, last =>
    match pickMin heap with
    | none => []
    | some (e, rest) =>
      match e.lines with
      | [] => []  -- `unreachable!("a section always start with a timestamp")`
      | _hd :: tl =>
        match consume e.owner e.idx e.m e.smap e.value tl with
        | .next outs v ls =>
          tsHeader last e.value ++ outs ++
            mergeRun fuel (⟨v, e.idx, e.owner, e.m, e.smap, ls⟩ :: rest) (some e.value)
        | .done outs => tsHeader last e.value ++ outs ++ mergeRun fuel rest (some e.value)
        | .abort outs => tsHeader last e.value ++ outs

/-- The default `VcdM` used by `List.getD` in `initHeap` (never reached
when section owners index into the input list). -/
def defVcd : VcdM := ⟨0, [], []⟩

/-- The initial heap: one entry per section, `value` from the section,
`idx` its position in the section list, metadata from the owning input. -/
def initHeap (vcds : List VcdM) (secs : List Sect) : List Entry :=
  secs.enum.map (fun p =>
    let v := vcds.getD p.2.owner defVcd
    ⟨p.2.value, p.1, p.2.owner, v.m, v.smap, p.2.lines⟩)

/-- The merged body production: `find_sections` followed by the merge loop
(`none` when `find_sections` panics). -/
def mergeBody (fuel : Nat) (vcds : List VcdM) : Option (List OutLine) :=
  match findSections vcds with
  | none => none
  | some secs => some (mergeRun fuel (initHeap vcds secs) none)

/-- The `#ts` values emitted, in order. -/
def outTsVals (outs : List OutLine) : List Nat :=
  outs.filterMap (fun o => match o with | .ts v => some v | _ => none)

/-- The `(scaled timestamp, section index)` keys of the emitted
value-change lines, in order. -/
def outChangeKeys (outs : List OutLine) : List (Nat × Nat) :=
  outs.filterMap (fun o => match o with | .change _ i t _ => some (t, i) | _ => none)

/-- The emitted value-change lines as `(owner, scaled timestamp, bytes)`. -/
def outChanges (outs : List OutLine) : List (Nat × Nat × List Nat) :=
  outs.filterMap (fun o => match o with | .change ow _ t b => some (ow, t, b) | _ => none)

/-- The bytes actually written for one output line: `#` + decimal + `\n`
for a timestamp (src/main.rs:463-465), the rewritten line + `\n` for a
value change. -/
def renderOut : OutLine → List Nat
  | .ts v => 35 :: (u64_to_bytes v ++ [10])
  | .change _ _ _ bytes => bytes ++ [10]

/-- The merged body byte stream. -/
def renderOuts (outs : List OutLine) : List Nat := (outs.map renderOut).flatten

/-! ## Derived notions used to state the properties -/

/-- Little-endian base-94 digits (offset by `0x21`) of `n`, on `len`
digit positions: the closed form of the allocator odometer once `len`
digits are in use. -/
def encDigits : Nat → Nat → List Nat
  | 0, _ => []
  | len + 1, n => (33 + n % 94) :: encDigits len (n / 94)

/-- The scaled timestamp of a body line: `some (n * m)` for a `#` line with
a valid decimal value, `none` otherwise. -/
def lineTs (m : Nat) (line : List Nat) : Option Nat :=
  if line.head? = some 35 then ((parse_u64 (line.drop 1)).toOption).map (fun n => n * m)
  else none

/-- The scaled timestamps of all (valid) timestamp lines, in order. -/
def sectTss (m : Nat) (lines : List (List Nat)) : List Nat := lines.filterMap (lineTs m)

/-- The section shape guaranteed by `find_sections`: the section starts
with a timestamp line whose scaled value is the section value, and its
timestamp lines are non-decreasing after scaling. -/
def sectWf (m : Nat) (s : Sect) : Prop :=
  lineTs m (s.lines.headD []) = some s.value ∧ List.Chain' (· ≤ ·) (sectTss m s.lines)

/-- The induction invariant on a heap entry: its current value is a lower
bound for (and chains into) the scaled timestamps of its remaining lines. -/
def wfEntry (e : Entry) : Prop :=
  List.Chain' (· ≤ ·) (e.value :: sectTss e.m (e.lines.drop 1))

/-- The emitted lines of a consume result. -/
def cresOuts : CRes → List OutLine
  | .next outs _ _ => outs
  | .done outs => outs
  | .abort outs => outs

/-- Total number of remaining lines across heap entries (the fuel measure
of the merge loop). -/
def totalLines (heap : List Entry) : Nat := (heap.map (fun e => e.lines.length)).sum

/-- Lexicographic order on `(timestamp, stable index)` pairs — the heap
order of `Reverse((value, index))`. -/
def lexLe (a b : Nat × Nat) : Prop := a.1 < b.1 ∨ (a.1 = b.1 ∧ a.2 ≤ b.2)

/-- Prepend the last emitted timestamp, if any. -/
def withLast (last : Option Nat) (l : List Nat) : List Nat :=
  match last with
  | none => l
  | some t => t :: l

/-- The multiset of emitted value-change events, keyed by
`(owner input, scaled timestamp, rewritten bytes)`. -/
def changesM (outs : List OutLine) : Multiset (Nat × Nat × List Nat) :=
  (outChanges outs : List (Nat × Nat × List Nat))

/-- Which translation a value-change line undergoes (`b`/`r` lines split at
the first space, anything else is scalar). -/
def scanTrans (smap : List (List Nat × List Nat)) (line : List Nat) : Option (List Nat) :=
  if line.head? = some 98 ∨ line.head? = some 114 then translateBR smap line
  else translateScalar smap line

/-- Specification-side event multiset of a run of body lines, scanned with
a running scaled timestamp: each value-change line contributes one event
keyed `(owner, current scaled ts, rewritten bytes)`; `$` lines and empty
lines contribute nothing; `#` lines update the timestamp.  (On a `#` line
with invalid digits the merger aborts instead; theorems about this
function assume digit-validity.) -/
def scanEv (owner : Nat) (smap : List (List Nat × List Nat)) (m : Nat) :
    Nat → List (List Nat) → Multiset (Nat × Nat × List Nat)
  | _, [] => 0
  | ts, line :: rest =>
    if line.head? = some 35 then
      scanEv owner smap m ((parse_u64 (line.drop 1)).toOption.getD 0 * m) rest
    else if line.head? = some 36 ∨ line = [] then scanEv owner smap m ts rest
    else
      match scanTrans smap line with
      | some out => {(owner, ts, out)} + scanEv owner smap m ts rest
      | none => scanEv owner smap m ts rest

/-- The events a heap entry will contribute: its remaining lines after the
leading timestamp line, scanned from its current value. -/
def entryEv (e : Entry) : Multiset (Nat × Nat × List Nat) :=
  scanEv e.owner e.smap e.m e.value (e.lines.drop 1)

/-- Specification-side event multiset of one input's body: the lines from
the first `#` timestamp line onwards, scanned from that line's scaled
value.  Lines before the first `#` line are not included (the section
finder never assigns them to a section). -/
def bodyEvents (owner : Nat) (smap : List (List Nat × List Nat)) (m : Nat) :
    List (List Nat) → Multiset (Nat × Nat × List Nat)
  | [] => 0
  | line :: rest =>
    if line.head? = some 35 then
      scanEv owner smap m ((parse_u64 (line.drop 1)).toOption.getD 0 * m) rest
    else bodyEvents owner smap m rest

/-- The union of `bodyEvents` over a list of inputs, the first one owning
index `k`. -/
def allBodyEvents (k : Nat) : List VcdM → Multiset (Nat × Nat × List Nat)
  | [] => 0
  | v :: rest => bodyEvents k v.smap v.m (splitNl v.body) + allBodyEvents (k + 1) rest

/-- The running scaled timestamp after scanning a run of lines. -/
def tsAfter (m : Nat) : Nat → List (List Nat) → Nat
  | ts, [] => ts
  | ts, line :: rest =>
    tsAfter m
      (if line.head? = some 35 then (parse_u64 (line.drop 1)).toOption.getD 0 * m else ts) rest

/-- A body line on which the merge loop does not panic: timestamp lines
have all-digit values, value-change lines translate successfully. -/
def okLine (smap : List (List Nat × List Nat)) (line : List Nat) : Bool :=
  if line.head? = some 35 then
    match parse_u64 (line.drop 1) with
    | .ok _ => true
    | .error _ => false
  else if line.head? = some 36 || line.isEmpty then true
  else (scanTrans smap line).isSome

/-- All body lines of an input are panic-free for the merge loop. -/
def okBody (v : VcdM) : Prop := ∀ ℓ ∈ splitNl v.body, okLine v.smap ℓ = true

/-- Executable check that a list of numbers is non-decreasing. -/
def chainLeB : List Nat → Bool
  | [] => true
  | [_] => true
  | a :: b :: rest => decide (a ≤ b) && chainLeB (b :: rest)

/-- Executable form of `sectWf`. -/
def sectWfB (m : Nat) (s : Sect) : Bool :=
  (lineTs m (s.lines.headD []) == some s.value) && chainLeB (sectTss m s.lines)

instance (v : VcdM) : Decidable (okBody v) :=
  inferInstanceAs (Decidable (∀ l ∈ splitNl v.body, okLine v.smap l = true))

/-- The events a finished section will contribute once consumed by the
merge loop: its lines after the leading timestamp line, scanned from the
section value (what `entryEv` computes on the heap entry built from it). -/
def secEv (smap : List (List Nat × List Nat)) (m : Nat) (s : Sect) :
    Multiset (Nat × Nat × List Nat) :=
  scanEv s.owner smap m s.value (s.lines.drop 1)

instance (a b : Nat × Nat) : Decidable (lexLe a b) :=
  inferInstanceAs (Decidable (a.1 < b.1 ∨ (a.1 = b.1 ∧ a.2 ≤ b.2)))

/-! # Theorems -/

theorem parse_u64_go_error (s : List Nat) : ∀ acc,
    parse_u64_go acc s = .error () ↔ ∃ b ∈ s, ¬ isDigit b = true := by
  induction s with
  | nil => intro acc; simp [parse_u64_go]
  | cons b rest ih =>
    intro acc
    by_cases h : isDigit b
    · simp [parse_u64_go, h, ih]
    · simp [parse_u64_go, h]

/-- C10: `parse_u64` returns `Err` exactly when some byte of its input is
not an ASCII digit; on the empty byte slice it returns `Ok 0`, so a body
line consisting of just `#` is treated as timestamp 0 (after scaling) by
both the section finder and the merge loop, rather than rejected. -/
theorem C10_parse_u64_empty :
    (∀ s : List Nat, parse_u64 s = .error () ↔ ∃ b ∈ s, ¬ isDigit b = true) ∧
    parse_u64 [] = .ok 0 ∧
    findSecGo 5 0 [[35]] none = some [⟨0, [[35]], 0⟩] ∧
    consume 0 0 5 [] 7 [[35]] = .next [] 0 [[35]] :=
  ⟨fun s => parse_u64_go_error s 0, rfl, by decide, by decide⟩

theorem u64go_spec (fuel : Nat) : ∀ v acc, v ≤ fuel →
    u64go fuel v acc = ((Nat.digits 10 v).map (fun d => d + 48)).reverse ++ acc := by
  induction fuel with
  | zero =>
    intro v acc h
    obtain rfl : v = 0 := Nat.le_zero.mp h
    simp [u64go]
  | succ f ih =>
    intro v acc h
    by_cases hv : v = 0
    · subst hv; simp [u64go]
    · have hd : v / 10 < v := Nat.div_lt_self (Nat.pos_of_ne_zero hv) (by norm_num)
      rw [u64go, if_neg hv, ih (v / 10) _ (by omega),
        Nat.digits_def' (by norm_num : (1:Nat) < 10) (Nat.pos_of_ne_zero hv)]
      simp

/-- C2 (counterexample): the claim fails at ts = 0.  `u64_to_bytes 0` is
the empty byte string, not the decimal digit string `"0"`, so a zero
timestamp is emitted as `#` immediately followed by newline. -/
theorem C2_counterexample :
    u64_to_bytes 0 = [] ∧ u64_to_bytes 0 ≠ s2b "0" ∧
    renderOut (OutLine.ts 0) = s2b "#\n" :=
  ⟨rfl, by decide, by decide⟩

/-- C2 (amended): for every positive `v`, `u64_to_bytes v` is the base-10
digit string of `v` (most significant digit first); the emitted timestamp
line is `#` + that string + `\n`.  For `v = 0` the digit string is empty. -/
theorem C2_decimal_rendering (v : Nat) (_h : 0 < v) :
    u64_to_bytes v = ((Nat.digits 10 v).map (fun d => d + 48)).reverse := by
  have hgo := u64go_spec v v [] le_rfl
  simpa [u64_to_bytes] using hgo

theorem C2_decimal_rendering_witness :
    0 < 1203 ∧ u64_to_bytes 1203 = ((Nat.digits 10 1203).map (fun d => d + 48)).reverse :=
  ⟨by decide, C2_decimal_rendering 1203 (by decide)⟩

/-- C1 (code bug, failing input `$timescale 1us $end`): the unit search
`find(['f','p','n','m','s'])` does not include `'u'`, so for `1us` it
finds the `'s'` and the directive is parsed as seconds: the stored
timescale is `10^15` femtoseconds, not the `10^9` required by the claim
(and by the dead `b"us"` match arm of the code itself). -/
theorem C1_us_unit_code_bug :
    timescaleOf (s2b "1us ") = some 1000000000000000 ∧
    (parseVcdOne 50 (s2b "$timescale 1us $end\n$enddefinitions $end\n") ⟨none, none⟩
        [0, 0, 0, 0]).map (fun p => p.1.timescale) = some 1000000000000000 ∧
    timescaleOf (s2b "1ns ") = some 1000000 ∧
    timescaleOf (s2b "10ps ") = some 10000 ∧
    (1000000000000000 : Nat) ≠ 1000000000 :=
  ⟨by decide, by decide, by decide, by decide, by decide⟩

/-- C7 (counterexample): on the input
`"$timescale 1 ns $end\n$dumpvars\n#0\n1!\n"` the prelude terminates with
`end_of_definitions = 31`, the offset just *past* the `$dumpvars` line,
not 21, the offset of the start of that line as the claim requires. -/
theorem C7_counterexample :
    (parseVcdOne 50 (s2b "$timescale 1 ns $end\n$dumpvars\n#0\n1!\n") ⟨none, none⟩
        [0, 0, 0, 0]).map (fun p => p.2) = some 31 ∧
    (s2b "$timescale 1 ns $end\n").length = 21 ∧ (31 : Nat) ≠ 21 :=
  ⟨by decide, by decide, by decide⟩

/-- C7 (amended): when the header loop meets a `$dumpvars` token (or any
unrecognised initial token, e.g. `#0`), the prelude terminates at the
*end* of the line containing that token: `end_of_definitions` points just
past that line's newline, whatever follows, so the line itself is consumed
and is not part of the body handed to the section finder. -/
theorem C7_prelude_termination (rest : List Nat) :
    (parseVcdOne 9 (s2b "$timescale 1 ns $end\n" ++ (s2b "$dumpvars\n" ++ rest)) ⟨none, none⟩
        [0, 0, 0, 0]).map (fun p => p.2) = some 31 ∧
    (parseVcdOne 9 (s2b "$timescale 1 ns $end\n" ++ (s2b "#0\n" ++ rest)) ⟨none, none⟩
        [0, 0, 0, 0]).map (fun p => p.2) = some 24 := by
  constructor <;>
    simp [parseVcdOne, headerLoop, nextToken, ntGo, readLine, splitWs, splitWsGo, s2b,
      take_to_end, take_to_end_go, timescaleOf, parse_u64, parse_u64_go, isDigit, isWs]

/-! ### The allocator odometer (C6) -/

theorem bump_encDigits (len : Nat) : ∀ n t, n + 1 < 94 ^ len →
    bump (encDigits len n ++ t) = encDigits len (n + 1) ++ t := by
  induction len with
  | zero =>
    intro n t h
    simp [pow_zero] at h
  | succ l ih =>
    intro n t h
    have hp : (94:Nat) ^ (l + 1) = 94 ^ l * 94 := pow_succ 94 l
    rw [encDigits, List.cons_append, bump]
    by_cases hr : n % 94 < 93
    · rw [if_neg (by omega), if_pos (by omega), encDigits]
      have h1 : (n + 1) % 94 = n % 94 + 1 := by omega
      have h2 : (n + 1) / 94 = n / 94 := by omega
      rw [h1, h2, List.cons_append, Nat.add_assoc]
    · have hr' : n % 94 = 93 := by omega
      rw [if_neg (by omega), if_neg (by omega), ih (n / 94) t (by omega), encDigits]
      have h1 : (n + 1) % 94 = 0 := by omega
      have h2 : (n + 1) / 94 = n / 94 + 1 := by omega
      rw [h1, h2, List.cons_append]

theorem bump_encDigits_carry (len : Nat) : ∀ t,
    bump (encDigits len (94 ^ len - 1) ++ (0 :: t)) = encDigits (len + 1) 0 ++ t := by
  induction len with
  | zero => intro t; simp [encDigits, bump]
  | succ l ih =>
    intro t
    have hp : (94:Nat) ^ (l + 1) = 94 ^ l * 94 := pow_succ 94 l
    have hpos : 0 < (94:Nat) ^ l := pow_pos (by norm_num) l
    rw [encDigits]
    have h1 : (94 ^ (l + 1) - 1) % 94 = 93 := by omega
    have h2 : (94 ^ (l + 1) - 1) / 94 = 94 ^ l - 1 := by omega
    rw [h1, h2, List.cons_append, bump, if_neg (by omega), if_neg (by omega), ih t]
    have h3 : encDigits (l + 1 + 1) 0 = 33 :: encDigits (l + 1) 0 := by
      rw [encDigits]
    rw [h3, List.cons_append]

theorem bump_encDigits_wrap (len : Nat) :
    bump (encDigits len (94 ^ len - 1)) = encDigits len 0 := by
  induction len with
  | zero => simp [encDigits, bump]
  | succ l ih =>
    have hp : (94:Nat) ^ (l + 1) = 94 ^ l * 94 := pow_succ 94 l
    have hpos : 0 < (94:Nat) ^ l := pow_pos (by norm_num) l
    rw [encDigits]
    have h1 : (94 ^ (l + 1) - 1) % 94 = 93 := by omega
    have h2 : (94 ^ (l + 1) - 1) / 94 = 94 ^ l - 1 := by omega
    rw [h1, h2, bump, if_neg (by omega), if_neg (by omega), ih]
    have h3 : encDigits (l + 1) 0 = 33 :: encDigits l 0 := by
      rw [encDigits]
    rw [h3]

theorem iterate_bump_encDigits (k len : Nat) : ∀ n t, n + k < 94 ^ len →
    bump^[k] (encDigits len n ++ t) = encDigits len (n + k) ++ t := by
  induction k with
  | zero => intro n t _; simp
  | succ j ih =>
    intro n t h
    rw [Function.iterate_succ_apply', ih n t (by omega),
      bump_encDigits len (n + j) t (by omega), Nat.add_assoc]

theorem codeSeq_one : codeSeq 1 = encDigits 1 0 ++ [0, 0, 0] := by
  have h := bump_encDigits_carry 0 [0, 0, 0]
  simpa [codeSeq, encDigits] using h

theorem codeSeq_95 : codeSeq 95 = encDigits 2 0 ++ [0, 0] := by
  have h94 : codeSeq 94 = encDigits 1 93 ++ [0, 0, 0] := by
    have hadd : codeSeq 94 = bump^[93] (codeSeq 1) := by
      show bump^[94] [0, 0, 0, 0] = bump^[93] (bump^[1] [0, 0, 0, 0])
      rw [← Function.iterate_add_apply]
    rw [hadd, codeSeq_one, iterate_bump_encDigits 93 1 0 [0, 0, 0] (by norm_num)]
  have hstep : codeSeq 95 = bump (codeSeq 94) := by
    show bump^[95] [0, 0, 0, 0] = bump (bump^[94] [0, 0, 0, 0])
    exact Function.iterate_succ_apply' bump 94 [0, 0, 0, 0]
  have hc := bump_encDigits_carry 1 [0, 0]
  norm_num at hc
  rw [hstep, h94]
  exact hc

theorem codeSeq_8931 : codeSeq 8931 = encDigits 3 0 ++ [0] := by
  have h0 : codeSeq 8930 = encDigits 2 8835 ++ [0, 0] := by
    have hadd : codeSeq 8930 = bump^[8835] (codeSeq 95) := by
      show bump^[8930] [0, 0, 0, 0] = bump^[8835] (bump^[95] [0, 0, 0, 0])
      rw [← Function.iterate_add_apply]
    rw [hadd, codeSeq_95, iterate_bump_encDigits 8835 2 0 [0, 0] (by norm_num)]
  have hstep : codeSeq 8931 = bump (codeSeq 8930) := by
    show bump^[8931] [0, 0, 0, 0] = bump (bump^[8930] [0, 0, 0, 0])
    exact Function.iterate_succ_apply' bump 8930 [0, 0, 0, 0]
  have hc := bump_encDigits_carry 2 [0]
  norm_num at hc
  rw [hstep, h0]
  exact hc

theorem codeSeq_839515 : codeSeq 839515 = encDigits 4 0 := by
  have h0 : codeSeq 839514 = encDigits 3 830583 ++ [0] := by
    have hadd : codeSeq 839514 = bump^[830583] (codeSeq 8931) := by
      show bump^[839514] [0, 0, 0, 0] = bump^[830583] (bump^[8931] [0, 0, 0, 0])
      rw [← Function.iterate_add_apply]
    rw [hadd, codeSeq_8931, iterate_bump_encDigits 830583 3 0 [0] (by norm_num)]
  have hstep : codeSeq 839515 = bump (codeSeq 839514) := by
    show bump^[839515] [0, 0, 0, 0] = bump (bump^[839514] [0, 0, 0, 0])
    exact Function.iterate_succ_apply' bump 839514 [0, 0, 0, 0]
  have hc := bump_encDigits_carry 3 []
  norm_num at hc
  rw [hstep, h0]
  simpa using hc

theorem codeSeq_final (j : Nat) : codeSeq (839515 + j) = encDigits 4 (j % 94 ^ 4) := by
  have hN : (94:Nat) ^ 4 = 78074896 := by norm_num
  induction j with
  | zero => simpa using codeSeq_839515
  | succ i ih =>
    have hstep : codeSeq (839515 + (i + 1)) = bump (codeSeq (839515 + i)) := by
      show bump^[839515 + (i + 1)] [0, 0, 0, 0] = bump (bump^[839515 + i] [0, 0, 0, 0])
      exact Function.iterate_succ_apply' bump (839515 + i) [0, 0, 0, 0]
    rw [hstep, ih]
    by_cases hc : i % 94 ^ 4 = 94 ^ 4 - 1
    · rw [hc, bump_encDigits_wrap]
      have h1 : (i + 1) % 94 ^ 4 = 0 := by omega
      rw [h1]
    · have h1 : i % 94 ^ 4 + 1 < 94 ^ 4 := by omega
      have hb := bump_encDigits 4 (i % 94 ^ 4) [] h1
      rw [List.append_nil, List.append_nil] at hb
      rw [hb]
      have h2 : (i + 1) % 94 ^ 4 = i % 94 ^ 4 + 1 := by omega
      rw [h2]

/-- C6 (counterexample): the allocator does not fail on exhaustion and it
does silently repeat: the `IdCode` returned by call 839515 of `next_code`
(the first `!!!!`) is returned again by call 839515 + 94⁴ = 78914411. -/
theorem C6_counterexample :
    codeSeq 839515 = codeSeq 78914411 ∧ (839515 : Nat) ≠ 78914411 := by
  constructor
  · have h2 := codeSeq_final 78074896
    rw [show (78914411:Nat) = 839515 + 78074896 from by norm_num, h2]
    rw [codeSeq_839515]
    norm_num
  · omega

/-- C6 (amended): `next_code` never fails.  Once the odometer has passed
through the 94 + 94² + 94³ shorter codes (call 839515 returns `!!!!`), the
returned code sequence is periodic with period 94⁴: exhaustion silently
restarts the cycle, returning previously returned `IdCode`s. -/
theorem C6_allocator_wraps (k : Nat) (h : 839515 ≤ k) :
    codeSeq (k + 94 ^ 4) = codeSeq k := by
  obtain ⟨j, hj⟩ := Nat.le.dest h
  calc codeSeq (k + 94 ^ 4) = codeSeq (839515 + (j + 94 ^ 4)) := by rw [← hj, Nat.add_assoc]
    _ = encDigits 4 ((j + 94 ^ 4) % 94 ^ 4) := codeSeq_final (j + 94 ^ 4)
    _ = encDigits 4 (j % 94 ^ 4) := by rw [Nat.add_mod_right j (94 ^ 4)]
    _ = codeSeq (839515 + j) := (codeSeq_final j).symm
    _ = codeSeq k := by rw [hj]

theorem C6_allocator_wraps_witness :
    839515 ≤ 839515 ∧ codeSeq (839515 + 94 ^ 4) = codeSeq 839515 :=
  ⟨le_rfl, C6_allocator_wraps 839515 le_rfl⟩

/-! ### Projection lemmas for the merge loop -/

theorem outTsVals_nil : outTsVals [] = [] := rfl

theorem outTsVals_cons_ts (v : Nat) (l : List OutLine) :
    outTsVals (OutLine.ts v :: l) = v :: outTsVals l := rfl

theorem outTsVals_cons_change (o i t : Nat) (b : List Nat) (l : List OutLine) :
    outTsVals (OutLine.change o i t b :: l) = outTsVals l := rfl

theorem outTsVals_append (l1 l2 : List OutLine) :
    outTsVals (l1 ++ l2) = outTsVals l1 ++ outTsVals l2 := by
  simp [outTsVals]

theorem outChangeKeys_nil : outChangeKeys [] = [] := rfl

theorem outChangeKeys_cons_ts (v : Nat) (l : List OutLine) :
    outChangeKeys (OutLine.ts v :: l) = outChangeKeys l := rfl

theorem outChangeKeys_cons_change (o i t : Nat) (b : List Nat) (l : List OutLine) :
    outChangeKeys (OutLine.change o i t b :: l) = (t, i) :: outChangeKeys l := rfl

theorem outChangeKeys_append (l1 l2 : List OutLine) :
    outChangeKeys (l1 ++ l2) = outChangeKeys l1 ++ outChangeKeys l2 := by
  simp [outChangeKeys]

theorem cresOuts_cons (o : OutLine) (c : CRes) :
    cresOuts (cresCons o c) = o :: cresOuts c := by
  cases c <;> rfl

/-! ### Facts about `consume` -/

theorem consume_no_ts (o i m : Nat) (smap : List (List Nat × List Nat)) :
    ∀ lines ts, outTsVals (cresOuts (consume o i m smap ts lines)) = [] := by
  intro lines
  induction lines with
  | nil => intro ts; rfl
  | cons line rest ih =>
    intro ts
    rw [consume]
    by_cases h35 : line.head? = some 35
    · rw [if_pos h35]
      cases parse_u64 (line.drop 1) <;> rfl
    · rw [if_neg h35]
      by_cases hbr : line.head? = some 98 ∨ line.head? = some 114
      · rw [if_pos hbr]
        cases translateBR smap line with
        | none => rfl
        | some out => rw [cresOuts_cons, outTsVals_cons_change, ih]
      · rw [if_neg hbr]
        by_cases h36 : line.head? = some 36
        · rw [if_pos h36]; exact ih ts
        · rw [if_neg h36]
          by_cases hemp : line = []
          · rw [if_pos hemp]; exact ih ts
          · rw [if_neg hemp]
            cases translateScalar smap line with
            | none => rfl
            | some out => rw [cresOuts_cons, outTsVals_cons_change, ih]

theorem consume_keys (o i m : Nat) (smap : List (List Nat × List Nat)) :
    ∀ lines ts p, p ∈ outChangeKeys (cresOuts (consume o i m smap ts lines)) → p = (ts, i) := by
  intro lines
  induction lines with
  | nil => intro ts p hp; simp [consume, cresOuts, outChangeKeys_nil] at hp
  | cons line rest ih =>
    intro ts p
    rw [consume]
    by_cases h35 : line.head? = some 35
    · rw [if_pos h35]
      cases parse_u64 (line.drop 1) <;> intro hp <;>
        simp [cresOuts, outChangeKeys_nil] at hp
    · rw [if_neg h35]
      by_cases hbr : line.head? = some 98 ∨ line.head? = some 114
      · rw [if_pos hbr]
        cases translateBR smap line with
        | none => intro hp; simp [cresOuts, outChangeKeys_nil] at hp
        | some out =>
          rw [cresOuts_cons, outChangeKeys_cons_change]
          intro hp
          rcases List.mem_cons.mp hp with hp | hp
          · exact hp
          · exact ih ts p hp
      · rw [if_neg hbr]
        by_cases h36 : line.head? = some 36
        · rw [if_pos h36]; exact ih ts p
        · rw [if_neg h36]
          by_cases hemp : line = []
          · rw [if_pos hemp]; exact ih ts p
          · rw [if_neg hemp]
            cases translateScalar smap line with
            | none => intro hp; simp [cresOuts, outChangeKeys_nil] at hp
            | some out =>
              rw [cresOuts_cons, outChangeKeys_cons_change]
              intro hp
              rcases List.mem_cons.mp hp with hp | hp
              · exact hp
              · exact ih ts p hp

theorem lineTs_of_hash (m : Nat) (line : List Nat) (n : Nat)
    (h35 : line.head? = some 35) (hp : parse_u64 (line.drop 1) = .ok n) :
    lineTs m line = some (n * m) := by
  simp only [lineTs]
  rw [if_pos h35, hp]
  rfl

theorem lineTs_of_not_hash (m : Nat) (line : List Nat) (h35 : ¬ line.head? = some 35) :
    lineTs m line = none := by
  simp only [lineTs]
  rw [if_neg h35]

theorem sectTss_cons_some (m : Nat) (line : List Nat) (rest : List (List Nat)) (v : Nat)
    (h : lineTs m line = some v) : sectTss m (line :: rest) = v :: sectTss m rest := by
  simp [sectTss, h]

theorem sectTss_cons_none (m : Nat) (line : List Nat) (rest : List (List Nat))
    (h : lineTs m line = none) : sectTss m (line :: rest) = sectTss m rest := by
  simp [sectTss, h]

theorem consume_next_chain (o i m : Nat) (smap : List (List Nat × List Nat)) :
    ∀ lines ts outs v ls,
      List.Chain' (· ≤ ·) (ts :: sectTss m lines) →
      consume o i m smap ts lines = .next outs v ls →
      ts ≤ v ∧ ls ≠ [] ∧ List.Chain' (· ≤ ·) (v :: sectTss m (List.drop 1 ls)) := by
  intro lines
  induction lines with
  | nil => intro ts outs v ls _ heq; simp [consume] at heq
  | cons line rest ih =>
    intro ts outs v ls hch
    rw [consume]
    by_cases h35 : line.head? = some 35
    · rw [if_pos h35]
      cases hp : parse_u64 (line.drop 1) with
      | error e => intro heq; simp at heq
      | ok n =>
        intro heq
        obtain ⟨-, hv, hl⟩ : [] = outs ∧ n * m = v ∧ line :: rest = ls := by
          injection heq with h1 h2 h3
          exact ⟨h1, h2, h3⟩
        subst hv; subst hl
        rw [sectTss_cons_some m line rest (n * m) (lineTs_of_hash m line n h35 hp)] at hch
        refine ⟨(List.chain'_cons.mp hch).1, by simp, ?_⟩
        simpa using (List.chain'_cons.mp hch).2
    · rw [if_neg h35]
      have hna : sectTss m (line :: rest) = sectTss m rest :=
        sectTss_cons_none m line rest (lineTs_of_not_hash m line h35)
      rw [hna] at hch
      by_cases hbr : line.head? = some 98 ∨ line.head? = some 114
      · rw [if_pos hbr]
        cases translateBR smap line with
        | none => intro heq; simp at heq
        | some out =>
          cases hc : consume o i m smap ts rest with
          | next outs2 v2 ls2 =>
            intro heq
            simp only [cresCons] at heq
            obtain ⟨-, hv, hl⟩ : OutLine.change o i ts out :: outs2 = outs ∧ v2 = v ∧ ls2 = ls := by
              injection heq with h1 h2 h3
              exact ⟨h1, h2, h3⟩
            rw [← hv, ← hl]
            exact ih ts outs2 v2 ls2 hch hc
          | done outs2 => intro heq; simp [cresCons] at heq
          | abort outs2 => intro heq; simp [cresCons] at heq
      · rw [if_neg hbr]
        by_cases h36 : line.head? = some 36
        · rw [if_pos h36]; exact ih ts outs v ls hch
        · rw [if_neg h36]
          by_cases hemp : line = []
          · rw [if_pos hemp]; exact ih ts outs v ls hch
          · rw [if_neg hemp]
            cases translateScalar smap line with
            | none => intro heq; simp at heq
            | some out =>
              cases hc : consume o i m smap ts rest with
              | next outs2 v2 ls2 =>
                intro heq
                simp only [cresCons] at heq
                obtain ⟨-, hv, hl⟩ : OutLine.change o i ts out :: outs2 = outs ∧ v2 = v ∧ ls2 = ls := by
                  injection heq with h1 h2 h3
                  exact ⟨h1, h2, h3⟩
                rw [← hv, ← hl]
                exact ih ts outs2 v2 ls2 hch hc
              | done outs2 => intro heq; simp [cresCons] at heq
              | abort outs2 => intro heq; simp [cresCons] at heq

/-! ### Facts about `pickMin` -/

theorem keyLe_trans (a b c : Entry) (h1 : keyLe a b = true) (h2 : keyLe b c = true) :
    keyLe a c = true := by
  simp only [keyLe, Bool.or_eq_true, Bool.and_eq_true, decide_eq_true_eq] at *
  omega

theorem keyLe_total (a b : Entry) (h : ¬ keyLe a b = true) : keyLe b a = true := by
  simp only [keyLe, Bool.or_eq_true, Bool.and_eq_true, decide_eq_true_eq] at *
  omega

theorem pickMin_eq_none (heap : List Entry) (h : pickMin heap = none) : heap = [] := by
  cases heap with
  | nil => rfl
  | cons a es =>
    exfalso
    rw [pickMin] at h
    revert h
    cases pickMin es with
    | none => intro h; simp at h
    | some pr =>
      obtain ⟨mn, r⟩ := pr
      intro h
      by_cases hk : keyLe a mn = true <;> simp [hk] at h

theorem pickMin_perm (heap : List Entry) : ∀ e rest, pickMin heap = some (e, rest) →
    heap.Perm (e :: rest) := by
  induction heap with
  | nil => intro e rest h; simp [pickMin] at h
  | cons a es ih =>
    intro e rest h
    rw [pickMin] at h
    revert h
    cases hm : pickMin es with
    | none =>
      intro h
      simp only [Option.some.injEq, Prod.mk.injEq] at h
      obtain ⟨rfl, rfl⟩ := h
      rw [pickMin_eq_none es hm]
    | some pr =>
      obtain ⟨mn, r⟩ := pr
      intro h
      by_cases hk : keyLe a mn = true
      · simp only [hk, if_true, Option.some.injEq, Prod.mk.injEq] at h
        obtain ⟨rfl, rfl⟩ := h
        exact List.Perm.refl _
      · simp only [hk, if_false, Option.some.injEq, Prod.mk.injEq] at h
        obtain ⟨rfl, rfl⟩ := h
        exact ((ih _ r hm).cons a).trans (List.Perm.swap _ a r)

theorem pickMin_min (heap : List Entry) : ∀ e rest, pickMin heap = some (e, rest) →
    ∀ x ∈ rest, keyLe e x = true := by
  induction heap with
  | nil => intro e rest h; simp [pickMin] at h
  | cons a es ih =>
    intro e rest h
    rw [pickMin] at h
    revert h
    cases hm : pickMin es with
    | none =>
      intro h
      simp only [Option.some.injEq, Prod.mk.injEq] at h
      obtain ⟨rfl, rfl⟩ := h
      intro x hx
      simp at hx
    | some pr =>
      obtain ⟨mn, r⟩ := pr
      intro h
      by_cases hk : keyLe a mn = true
      · simp only [hk, if_true, Option.some.injEq, Prod.mk.injEq] at h
        obtain ⟨rfl, rfl⟩ := h
        intro x hx
        have hx' : x ∈ mn :: r := ((pickMin_perm es mn r hm).mem_iff).mp hx
        rcases List.mem_cons.mp hx' with hx' | hx'
        · rw [hx']; exact hk
        · exact keyLe_trans _ mn x hk (ih mn r hm x hx')
      · simp only [hk, if_false, Option.some.injEq, Prod.mk.injEq] at h
        obtain ⟨rfl, rfl⟩ := h
        intro x hx
        rcases List.mem_cons.mp hx with hx | hx
        · rw [hx]; exact keyLe_total a _ hk
        · exact ih _ r hm x hx

theorem pickMin_mem (heap : List Entry) (e : Entry) (rest : List Entry)
    (h : pickMin heap = some (e, rest)) : e ∈ heap :=
  ((pickMin_perm heap e rest h).mem_iff).mpr (List.mem_cons_self e rest)

theorem pickMin_rest_mem (heap : List Entry) (e : Entry) (rest : List Entry)
    (h : pickMin heap = some (e, rest)) : ∀ x ∈ rest, x ∈ heap := fun x hx =>
  ((pickMin_perm heap e rest h).mem_iff).mpr (List.mem_cons_of_mem e hx)

/-! ### The merge loop: timestamp monotonicity, de-duplication, stability -/

theorem outTsVals_tsHeader (last : Option Nat) (v : Nat) :
    outTsVals (tsHeader last v) = if last = some v then [] else [v] := by
  unfold tsHeader
  by_cases h : last = some v <;> simp [h, outTsVals]

theorem outChangeKeys_tsHeader (last : Option Nat) (v : Nat) :
    outChangeKeys (tsHeader last v) = [] := by
  unfold tsHeader
  by_cases h : last = some v <;> simp [h, outChangeKeys]

theorem keyLe_value_le (a b : Entry) (h : keyLe a b = true) : a.value ≤ b.value := by
  simp only [keyLe, Bool.or_eq_true, Bool.and_eq_true, decide_eq_true_eq] at h
  omega

/-- C9: in every run of the merge loop (any heap, any fuel, no previously
emitted timestamp), any two adjacent emitted `#ts` values differ: the
writer never emits a `#ts` header equal to the most recently emitted one. -/
theorem mergeRun_dedup (fuel : Nat) : ∀ (heap : List Entry) (last : Option Nat),
    List.Chain' (fun a b => a ≠ b) (withLast last (outTsVals (mergeRun fuel heap last))) := by
  induction fuel with
  | zero =>
    intro heap last
    cases last <;> simp [mergeRun, outTsVals_nil, withLast]
  | succ f ih =>
    intro heap last
    rw [mergeRun]
    cases hpm : pickMin heap with
    | none => cases last <;> simp [outTsVals_nil, withLast]
    | some pr =>
      obtain ⟨e, rest⟩ := pr
      dsimp only
      cases hl : e.lines with
      | nil => cases last <;> simp [outTsVals_nil, withLast]
      | cons hd tl =>
        have hchain : ∀ (heap' : List Entry),
            List.Chain' (fun a b => a ≠ b)
              (withLast last (outTsVals (tsHeader last e.value ++ cresOuts (consume e.owner e.idx e.m e.smap e.value tl) ++ mergeRun f heap' (some e.value)))) := by
          intro heap'
          rw [outTsVals_append, outTsVals_append, outTsVals_tsHeader,
            consume_no_ts e.owner e.idx e.m e.smap tl e.value]
          by_cases hlv : last = some e.value
          · rw [if_pos hlv, hlv]
            simpa [withLast] using ih heap' (some e.value)
          · rw [if_neg hlv]
            cases last with
            | none => simpa [withLast] using ih heap' (some e.value)
            | some t =>
              have ht : t ≠ e.value := fun hc => hlv (by rw [hc])
              have := ih heap' (some e.value)
              simp only [withLast] at this ⊢
              exact List.chain'_cons.mpr ⟨ht, this⟩
        have habort :
            List.Chain' (fun a b => a ≠ b)
              (withLast last (outTsVals (tsHeader last e.value ++ cresOuts (consume e.owner e.idx e.m e.smap e.value tl)))) := by
          rw [outTsVals_append, outTsVals_tsHeader,
            consume_no_ts e.owner e.idx e.m e.smap tl e.value]
          by_cases hlv : last = some e.value
          · rw [if_pos hlv, hlv]; simp [withLast]
          · rw [if_neg hlv]
            cases last with
            | none => simp [withLast]
            | some t =>
              have ht : t ≠ e.value := fun hc => hlv (by rw [hc])
              simp [withLast, ht]
        cases hc : consume e.owner e.idx e.m e.smap e.value tl with
        | next outs v ls =>
          simp only [hc]
          have h9 := hchain (⟨v, e.idx, e.owner, e.m, e.smap, ls⟩ :: rest)
          simp only [hc, cresOuts] at h9
          exact h9
        | done outs =>
          simp only [hc]
          have h9 := hchain rest
          simp only [hc, cresOuts] at h9
          exact h9
        | abort outs =>
          simp only [hc]
          have h9 := habort
          simp only [hc, cresOuts] at h9
          exact h9

/-- The monotonicity invariant of the merge loop: if every heap entry's
remaining scaled timestamps chain upwards from its current value, and the
last emitted timestamp (if any) is at most every entry's value, then the
emitted `#ts` sequence extends the last emitted value non-decreasingly. -/
theorem mergeRun_mono (fuel : Nat) : ∀ (heap : List Entry) (last : Option Nat),
    (∀ e ∈ heap, wfEntry e) →
    (∀ e ∈ heap, ∀ t, last = some t → t ≤ e.value) →
    List.Chain' (· ≤ ·) (withLast last (outTsVals (mergeRun fuel heap last))) := by
  induction fuel with
  | zero =>
    intro heap last _ _
    cases last <;> simp [mergeRun, outTsVals_nil, withLast]
  | succ f ih =>
    intro heap last hwf hlb
    rw [mergeRun]
    cases hpm : pickMin heap with
    | none => cases last <;> simp [outTsVals_nil, withLast]
    | some pr =>
      obtain ⟨e, rest⟩ := pr
      dsimp only
      have hmem : e ∈ heap := pickMin_mem heap e rest hpm
      cases hl : e.lines with
      | nil => cases last <;> simp [outTsVals_nil, withLast]
      | cons hd tl =>
        have hwfe : List.Chain' (· ≤ ·) (e.value :: sectTss e.m tl) := by
          have := hwf e hmem
          unfold wfEntry at this
          rw [hl] at this
          simpa using this
        have hrest_wf : ∀ x ∈ rest, wfEntry x := fun x hx =>
          hwf x (pickMin_rest_mem heap e rest hpm x hx)
        have hrest_lb : ∀ x ∈ rest, e.value ≤ x.value := fun x hx =>
          keyLe_value_le e x (pickMin_min heap e rest hpm x hx)
        have hchain : ∀ (heap' : List Entry),
            (∀ x ∈ heap', wfEntry x) →
            (∀ x ∈ heap', e.value ≤ x.value) →
            List.Chain' (· ≤ ·)
              (withLast last (outTsVals (tsHeader last e.value ++ cresOuts (consume e.owner e.idx e.m e.smap e.value tl) ++ mergeRun f heap' (some e.value)))) := by
          intro heap' hwf' hlb'
          rw [outTsVals_append, outTsVals_append, outTsVals_tsHeader,
            consume_no_ts e.owner e.idx e.m e.smap tl e.value]
          have hih := ih heap' (some e.value) hwf'
            (fun x hx t ht => by
              obtain rfl : e.value = t := by injection ht
              exact hlb' x hx)
          by_cases hlv : last = some e.value
          · rw [if_pos hlv, hlv]
            simpa [withLast] using hih
          · rw [if_neg hlv]
            cases last with
            | none => simpa [withLast] using hih
            | some t =>
              have ht : t ≤ e.value := hlb e hmem t rfl
              simp only [withLast] at hih ⊢
              exact List.chain'_cons.mpr ⟨ht, hih⟩
        cases hc : consume e.owner e.idx e.m e.smap e.value tl with
        | next outs v ls =>
          obtain ⟨hev, hlsne, hch'⟩ :=
            consume_next_chain e.owner e.idx e.m e.smap tl e.value outs v ls hwfe hc
          simp only [hc]
          have h9 := hchain (⟨v, e.idx, e.owner, e.m, e.smap, ls⟩ :: rest)
            (by
              intro x hx
              rcases List.mem_cons.mp hx with hx | hx
              · rw [hx]; exact hch'
              · exact hrest_wf x hx)
            (by
              intro x hx
              rcases List.mem_cons.mp hx with hx | hx
              · rw [hx]; exact hev
              · exact hrest_lb x hx)
          simp only [hc, cresOuts] at h9
          exact h9
        | done outs =>
          simp only [hc]
          have h9 := hchain rest hrest_wf hrest_lb
          simp only [hc, cresOuts] at h9
          exact h9
        | abort outs =>
          simp only [hc]
          rw [outTsVals_append, outTsVals_tsHeader]
          have hno := consume_no_ts e.owner e.idx e.m e.smap tl e.value
          rw [hc] at hno
          rw [show outTsVals outs = [] from hno]
          by_cases hlv : last = some e.value
          · rw [if_pos hlv, hlv]; simp [withLast]
          · rw [if_neg hlv]
            cases last with
            | none => simp [withLast]
            | some t =>
              have ht : t ≤ e.value := hlb e hmem t rfl
              simp [withLast, ht]

theorem initHeap_mem (vcds : List VcdM) (secs : List Sect) :
    ∀ en ∈ initHeap vcds secs, ∃ s ∈ secs,
      en.value = s.value ∧ en.owner = s.owner ∧
      en.m = (vcds.getD s.owner defVcd).m ∧
      en.smap = (vcds.getD s.owner defVcd).smap ∧ en.lines = s.lines := by
  intro en hen
  simp only [initHeap, List.mem_map] at hen
  obtain ⟨p, hp, rfl⟩ := hen
  have hsnd : p.2 ∈ secs := by
    have hmap := List.enum_map_snd secs
    exact hmap ▸ List.mem_map_of_mem Prod.snd hp
  exact ⟨p.2, hsnd, rfl, rfl, rfl, rfl, rfl⟩

theorem chainLeB_chain' (l : List Nat) (h : chainLeB l = true) :
    List.Chain' (· ≤ ·) l := by
  induction l with
  | nil => simp
  | cons a rest ih =>
    cases rest with
    | nil => simp
    | cons b rest2 =>
      simp only [chainLeB, Bool.and_eq_true, decide_eq_true_eq] at h
      exact List.chain'_cons.mpr ⟨h.1, ih h.2⟩

theorem sectWf_of_sectWfB (m : Nat) (s : Sect) (h : sectWfB m s = true) : sectWf m s := by
  simp only [sectWfB, Bool.and_eq_true, beq_iff_eq] at h
  exact ⟨h.1, chainLeB_chain' _ h.2⟩

theorem wfEntry_of_sectWf (m : Nat) (s : Sect) (h : sectWf m s) :
    List.Chain' (· ≤ ·) (s.value :: sectTss m (s.lines.drop 1)) := by
  obtain ⟨h1, h2⟩ := h
  cases hl : s.lines with
  | nil => rw [hl] at h1; simp [lineTs] at h1
  | cons hd tl =>
    rw [hl] at h1 h2
    rw [List.headD_cons] at h1
    rw [sectTss_cons_some m hd tl s.value h1] at h2
    simpa using h2

/-- C3: for any list of sections whose timestamp lines are non-decreasing
after scaling (with the section value the scaled value of the leading `#`
line, as `find_sections` guarantees), every run of the merge writer emits
a non-decreasing sequence of `#ts` values. -/
theorem C3_monotone_output (fuel : Nat) (vcds : List VcdM) (secs : List Sect)
    (h : ∀ s ∈ secs, sectWfB ((vcds.getD s.owner defVcd).m) s = true) :
    List.Chain' (· ≤ ·) (outTsVals (mergeRun fuel (initHeap vcds secs) none)) := by
  have hm := mergeRun_mono fuel (initHeap vcds secs) none
    (by
      intro en hen
      obtain ⟨s, hs, hv, _ho, hmm, _hsm, hln⟩ := initHeap_mem vcds secs en hen
      unfold wfEntry
      rw [hv, hmm, hln]
      exact wfEntry_of_sectWf _ s (sectWf_of_sectWfB _ s (h s hs)))
    (by intro en _ t ht; cases ht)
  simpa [withLast] using hm

theorem C3_monotone_output_witness :
    (∀ s ∈ [Sect.mk 5 [[35, 53], [49, 33]] 0, Sect.mk 3 [[35, 51], [48, 33], [35, 55]] 0],
      sectWfB ((List.getD [VcdM.mk 1 [([33, 0, 0, 0], [34, 0, 0, 0])] []] s.owner defVcd).m) s = true) ∧
    List.Chain' (· ≤ ·) (outTsVals (mergeRun 9
      (initHeap [VcdM.mk 1 [([33, 0, 0, 0], [34, 0, 0, 0])] []]
        [Sect.mk 5 [[35, 53], [49, 33]] 0, Sect.mk 3 [[35, 51], [48, 33], [35, 55]] 0]) none)) :=
  ⟨by decide, by
    have h9 := C3_monotone_output 9
      [VcdM.mk 1 [([33, 0, 0, 0], [34, 0, 0, 0])] []]
      [Sect.mk 5 [[35, 53], [49, 33]] 0, Sect.mk 3 [[35, 51], [48, 33], [35, 55]] 0]
      (by decide)
    exact h9⟩

/-- C9: in every run of the merge loop, any two adjacent emitted `#ts`
lines carry different values — the writer compares the peeked value against
`last_timestamp` and skips the header when they are equal, so no `#ts`
header ever repeats the most recently emitted timestamp. -/
theorem C9_adjacent_ts_differ (fuel : Nat) (heap : List Entry) :
    List.Chain' (fun a b => a ≠ b) (outTsVals (mergeRun fuel heap none)) := by
  simpa [withLast] using mergeRun_dedup fuel heap none

/-! ### Stable tie-breaking (C8) -/

theorem lexLe_refl (a : Nat × Nat) : lexLe a a := Or.inr ⟨rfl, le_rfl⟩

theorem lexLe_trans' (a b c : Nat × Nat) (h1 : lexLe a b) (h2 : lexLe b c) : lexLe a c := by
  unfold lexLe at *
  omega

theorem lexLe_of_keyLe (a b : Entry) (h : keyLe a b = true) :
    lexLe (a.value, a.idx) (b.value, b.idx) := by
  simp only [keyLe, Bool.or_eq_true, Bool.and_eq_true, decide_eq_true_eq] at h
  unfold lexLe
  simp only
  omega

theorem chain'_lexLe_of_head (c bound : Nat × Nat) (keys : List (Nat × Nat))
    (hb : lexLe bound c) (h : List.Chain' lexLe (c :: keys)) :
    List.Chain' lexLe (bound :: keys) := by
  cases keys with
  | nil => simp
  | cons k ks =>
    have h' := List.chain'_cons.mp h
    exact List.chain'_cons.mpr ⟨lexLe_trans' bound c k hb h'.1, h'.2⟩

theorem chain'_const_append (c : Nat × Nat) (keys : List (Nat × Nat))
    (h : List.Chain' lexLe (c :: keys)) :
    ∀ ks : List (Nat × Nat), (∀ p ∈ ks, p = c) →
    ∀ bound, lexLe bound c → List.Chain' lexLe (bound :: (ks ++ keys)) := by
  intro ks
  induction ks with
  | nil => intro _ bound hb; exact chain'_lexLe_of_head c bound keys hb h
  | cons a ks' ih =>
    intro hks bound hb
    have ha : a = c := hks a (List.mem_cons_self a ks')
    refine List.chain'_cons.mpr ⟨?_, ?_⟩
    · rw [ha]; exact hb
    · exact ih (fun p hp => hks p (List.mem_cons_of_mem a hp)) a (by rw [ha]; exact lexLe_refl c)

/-- The stability invariant of the merge loop: if all entries are
well-formed and bounded below by `bound` in the `(value, index)` ordering,
the emitted change keys chain upwards from `bound` lexicographically. -/
theorem mergeRun_stable (fuel : Nat) : ∀ (heap : List Entry) (last : Option Nat)
    (bound : Nat × Nat),
    (∀ e ∈ heap, wfEntry e) →
    (∀ e ∈ heap, lexLe bound (e.value, e.idx)) →
    List.Chain' lexLe (bound :: outChangeKeys (mergeRun fuel heap last)) := by
  induction fuel with
  | zero => intro heap last bound _ _; simp [mergeRun, outChangeKeys_nil]
  | succ f ih =>
    intro heap last bound hwf hlb
    rw [mergeRun]
    cases hpm : pickMin heap with
    | none => simp [outChangeKeys_nil]
    | some pr =>
      obtain ⟨e, rest⟩ := pr
      dsimp only
      have hmem : e ∈ heap := pickMin_mem heap e rest hpm
      have hb : lexLe bound (e.value, e.idx) := hlb e hmem
      cases hl : e.lines with
      | nil => simp [outChangeKeys_nil]
      | cons hd tl =>
        have hwfe : List.Chain' (· ≤ ·) (e.value :: sectTss e.m tl) := by
          have := hwf e hmem
          unfold wfEntry at this
          rw [hl] at this
          simpa using this
        have hkeys := consume_keys e.owner e.idx e.m e.smap tl e.value
        have hrest_wf : ∀ x ∈ rest, wfEntry x := fun x hx =>
          hwf x (pickMin_rest_mem heap e rest hpm x hx)
        have hrest_lb : ∀ x ∈ rest, lexLe (e.value, e.idx) (x.value, x.idx) := fun x hx =>
          lexLe_of_keyLe e x (pickMin_min heap e rest hpm x hx)
        cases hc : consume e.owner e.idx e.m e.smap e.value tl with
        | next outs v ls =>
          obtain ⟨hev, -, hch'⟩ :=
            consume_next_chain e.owner e.idx e.m e.smap tl e.value outs v ls hwfe hc
          simp only [hc]
          rw [outChangeKeys_append, outChangeKeys_append, outChangeKeys_tsHeader,
            List.nil_append]
          have hih := ih (⟨v, e.idx, e.owner, e.m, e.smap, ls⟩ :: rest) (some e.value)
            (e.value, e.idx)
            (by
              intro x hx
              rcases List.mem_cons.mp hx with hx | hx
              · rw [hx]; exact hch'
              · exact hrest_wf x hx)
            (by
              intro x hx
              rcases List.mem_cons.mp hx with hx | hx
              · rw [hx]
                unfold lexLe
                simp only
                omega
              · exact hrest_lb x hx)
          refine chain'_const_append (e.value, e.idx) _ hih (outChangeKeys outs) ?_ bound hb
          intro p hp
          apply hkeys p
          rw [hc]
          exact hp
        | done outs =>
          simp only [hc]
          rw [outChangeKeys_append, outChangeKeys_append, outChangeKeys_tsHeader,
            List.nil_append]
          have hih := ih rest (some e.value) (e.value, e.idx) hrest_wf hrest_lb
          refine chain'_const_append (e.value, e.idx) _ hih (outChangeKeys outs) ?_ bound hb
          intro p hp
          apply hkeys p
          rw [hc]
          exact hp
        | abort outs =>
          simp only [hc]
          rw [outChangeKeys_append, outChangeKeys_tsHeader, List.nil_append]
          have hca := chain'_const_append (e.value, e.idx) [] (List.chain'_singleton _)
            (outChangeKeys outs)
            (by
              intro p hp
              apply hkeys p
              rw [hc]
              exact hp) bound hb
          simpa using hca

/-- C8: for well-formed sections, the `(scaled timestamp, stable index)`
keys of the emitted value-change lines are lexicographically non-decreasing:
among events with equal merged timestamps, all lines of the section with the
smaller stable index (input order, then intra-input order) are emitted
before any line of a section with a larger index. -/
theorem C8_stable_tiebreak (fuel : Nat) (vcds : List VcdM) (secs : List Sect)
    (h : ∀ s ∈ secs, sectWfB ((vcds.getD s.owner defVcd).m) s = true) :
    List.Chain' lexLe (outChangeKeys (mergeRun fuel (initHeap vcds secs) none)) := by
  have hst := mergeRun_stable fuel (initHeap vcds secs) none (0, 0)
    (by
      intro en hen
      obtain ⟨s, hs, hv, _ho, hmm, _hsm, hln⟩ := initHeap_mem vcds secs en hen
      unfold wfEntry
      rw [hv, hmm, hln]
      exact wfEntry_of_sectWf _ s (sectWf_of_sectWfB _ s (h s hs)))
    (by
      intro en _
      unfold lexLe
      simp only
      omega)
  exact (List.chain'_cons'.mp hst).2

theorem C8_stable_tiebreak_witness :
    (∀ s ∈ [Sect.mk 5 [[35, 53], [49, 33]] 0, Sect.mk 5 [[35, 53], [48, 33]] 1],
      sectWfB ((List.getD [VcdM.mk 1 [([33, 0, 0, 0], [34, 0, 0, 0])] [],
        VcdM.mk 1 [([33, 0, 0, 0], [35, 0, 0, 0])] []] s.owner defVcd).m) s = true) ∧
    List.Chain' lexLe (outChangeKeys (mergeRun 9
      (initHeap [VcdM.mk 1 [([33, 0, 0, 0], [34, 0, 0, 0])] [],
        VcdM.mk 1 [([33, 0, 0, 0], [35, 0, 0, 0])] []]
        [Sect.mk 5 [[35, 53], [49, 33]] 0, Sect.mk 5 [[35, 53], [48, 33]] 1]) none)) :=
  ⟨by decide, by
    have h9 := C8_stable_tiebreak 9
      [VcdM.mk 1 [([33, 0, 0, 0], [34, 0, 0, 0])] [], VcdM.mk 1 [([33, 0, 0, 0], [35, 0, 0, 0])] []]
      [Sect.mk 5 [[35, 53], [49, 33]] 0, Sect.mk 5 [[35, 53], [48, 33]] 1]
      (by decide)
    exact h9⟩

/-! ### Event conservation (C4): multiset projections -/

theorem outChanges_nil : outChanges [] = [] := rfl

theorem outChanges_cons_ts (v : Nat) (l : List OutLine) :
    outChanges (OutLine.ts v :: l) = outChanges l := rfl

theorem outChanges_cons_change (ow i t : Nat) (b : List Nat) (l : List OutLine) :
    outChanges (OutLine.change ow i t b :: l) = (ow, t, b) :: outChanges l := rfl

theorem outChanges_append (l1 l2 : List OutLine) :
    outChanges (l1 ++ l2) = outChanges l1 ++ outChanges l2 := by
  simp [outChanges]

theorem changesM_nil : changesM [] = 0 := rfl

theorem changesM_cons_change (ow i t : Nat) (b : List Nat) (l : List OutLine) :
    changesM (OutLine.change ow i t b :: l) = (ow, t, b) ::ₘ changesM l := by
  unfold changesM
  rw [outChanges_cons_change]
  rfl

theorem changesM_append (l1 l2 : List OutLine) :
    changesM (l1 ++ l2) = changesM l1 + changesM l2 := by
  unfold changesM
  rw [outChanges_append]
  exact (Multiset.coe_add _ _)

theorem changesM_tsHeader (last : Option Nat) (v : Nat) :
    changesM (tsHeader last v) = 0 := by
  unfold tsHeader
  by_cases h : last = some v <;> simp [h, changesM, outChanges]

theorem okLine_nil (smap : List (List Nat × List Nat)) : okLine smap [] = true := rfl

theorem totalLines_cons (e : Entry) (rest : List Entry) :
    totalLines (e :: rest) = e.lines.length + totalLines rest := by
  simp [totalLines]

/-- One section pass conserves events: the changes emitted by `consume`
together with the events still pending in the returned state are exactly
the specification-side events of the consumed lines. -/
theorem consume_ev (o i m : Nat) (smap : List (List Nat × List Nat)) :
    ∀ lines ts, (∀ l ∈ lines, okLine smap l = true) →
    (match consume o i m smap ts lines with
     | .next outs v ls =>
         changesM outs + scanEv o smap m v (ls.drop 1) = scanEv o smap m ts lines ∧
         ls.length ≤ lines.length ∧ ls ≠ [] ∧ (∀ l ∈ ls, okLine smap l = true)
     | .done outs => changesM outs = scanEv o smap m ts lines
     | .abort _ => False) := by
  intro lines
  induction lines with
  | nil =>
    intro ts _
    simp [consume, changesM_nil, scanEv]
  | cons line rest ih =>
    intro ts hok
    have hokl : okLine smap line = true := hok line (List.mem_cons_self _ _)
    have hokr : ∀ l ∈ rest, okLine smap l = true :=
      fun l h => hok l (List.mem_cons_of_mem _ h)
    rw [consume]
    by_cases h35 : line.head? = some 35
    · rw [if_pos h35]
      cases hp : parse_u64 (line.drop 1) with
      | error u =>
        exfalso
        unfold okLine at hokl
        rw [if_pos h35, hp] at hokl
        simp at hokl
      | ok n =>
        dsimp only
        refine ⟨?_, le_refl _, by simp, hok⟩
        rw [changesM_nil, zero_add, scanEv, if_pos h35, hp]
        simp [Except.toOption]
    · rw [if_neg h35]
      by_cases hbr : line.head? = some 98 ∨ line.head? = some 114
      · rw [if_pos hbr]
        have hne_nil : line ≠ [] := by
          intro hcon
          rw [hcon] at hbr
          simp at hbr
        have h36 : ¬ line.head? = some 36 := by
          rcases hbr with hbr | hbr <;> rw [hbr] <;> simp
        have hscan : scanTrans smap line = translateBR smap line := by
          unfold scanTrans
          rw [if_pos hbr]
        have hsome : (translateBR smap line).isSome = true := by
          unfold okLine at hokl
          rw [if_neg h35] at hokl
          rw [if_neg (by simp [h36, List.isEmpty_iff, hne_nil])] at hokl
          rw [hscan] at hokl
          exact hokl
        obtain ⟨out, htr⟩ := Option.isSome_iff_exists.mp hsome
        rw [htr]
        dsimp only
        have hsc : scanEv o smap m ts (line :: rest) =
            (o, ts, out) ::ₘ scanEv o smap m ts rest := by
          rw [scanEv, if_neg h35,
            if_neg (by
              intro hcon
              rcases hcon with hcon | hcon
              · exact h36 hcon
              · exact hne_nil hcon), hscan, htr]
          simp [Multiset.singleton_add]
        have hrec := ih ts hokr
        cases hc : consume o i m smap ts rest with
        | next outs2 v2 ls2 =>
          rw [hc] at hrec
          dsimp only [cresCons] at hrec ⊢
          obtain ⟨hev, hlen, hlne, hokls⟩ := hrec
          refine ⟨?_, by simpa using Nat.le_succ_of_le hlen, hlne, hokls⟩
          rw [changesM_cons_change, hsc, Multiset.cons_add, hev]
        | done outs2 =>
          rw [hc] at hrec
          dsimp only [cresCons] at hrec ⊢
          rw [changesM_cons_change, hsc, hrec]
        | abort outs2 =>
          rw [hc] at hrec
          dsimp only at hrec
      · rw [if_neg hbr]
        by_cases h36 : line.head? = some 36
        · rw [if_pos h36]
          have hsc : scanEv o smap m ts (line :: rest) = scanEv o smap m ts rest := by
            rw [scanEv, if_neg h35, if_pos (Or.inl h36)]
          have hrec := ih ts hokr
          cases hc : consume o i m smap ts rest with
          | next outs2 v2 ls2 =>
            rw [hc] at hrec
            dsimp only at hrec ⊢
            obtain ⟨hev, hlen, hlne, hokls⟩ := hrec
            refine ⟨?_, by simpa using Nat.le_succ_of_le hlen, hlne, hokls⟩
            rw [hsc]
            exact hev
          | done outs2 =>
            rw [hc] at hrec
            dsimp only at hrec ⊢
            rw [hsc]
            exact hrec
          | abort outs2 =>
            rw [hc] at hrec
            dsimp only at hrec
        · rw [if_neg h36]
          by_cases hemp : line = []
          · rw [if_pos hemp]
            have hsc : scanEv o smap m ts (line :: rest) = scanEv o smap m ts rest := by
              rw [scanEv, if_neg h35, if_pos (Or.inr hemp)]
            have hrec := ih ts hokr
            cases hc : consume o i m smap ts rest with
            | next outs2 v2 ls2 =>
              rw [hc] at hrec
              dsimp only at hrec ⊢
              obtain ⟨hev, hlen, hlne, hokls⟩ := hrec
              refine ⟨?_, by simpa using Nat.le_succ_of_le hlen, hlne, hokls⟩
              rw [hsc]
              exact hev
            | done outs2 =>
              rw [hc] at hrec
              dsimp only at hrec ⊢
              rw [hsc]
              exact hrec
            | abort outs2 =>
              rw [hc] at hrec
              dsimp only at hrec
          · rw [if_neg hemp]
            have hscan : scanTrans smap line = translateScalar smap line := by
              unfold scanTrans
              rw [if_neg hbr]
            have hsome : (translateScalar smap line).isSome = true := by
              unfold okLine at hokl
              rw [if_neg h35] at hokl
              rw [if_neg (by simp [h36, List.isEmpty_iff, hemp])] at hokl
              rw [hscan] at hokl
              exact hokl
            obtain ⟨out, htr⟩ := Option.isSome_iff_exists.mp hsome
            rw [htr]
            dsimp only
            have hsc : scanEv o smap m ts (line :: rest) =
                (o, ts, out) ::ₘ scanEv o smap m ts rest := by
              rw [scanEv, if_neg h35,
                if_neg (by
                  intro hcon
                  rcases hcon with hcon | hcon
                  · exact h36 hcon
                  · exact hemp hcon), hscan, htr]
              simp [Multiset.singleton_add]
            have hrec := ih ts hokr
            cases hc : consume o i m smap ts rest with
            | next outs2 v2 ls2 =>
              rw [hc] at hrec
              dsimp only [cresCons] at hrec ⊢
              obtain ⟨hev, hlen, hlne, hokls⟩ := hrec
              refine ⟨?_, by simpa using Nat.le_succ_of_le hlen, hlne, hokls⟩
              rw [changesM_cons_change, hsc, Multiset.cons_add, hev]
            | done outs2 =>
              rw [hc] at hrec
              dsimp only [cresCons] at hrec ⊢
              rw [changesM_cons_change, hsc, hrec]
            | abort outs2 =>
              rw [hc] at hrec
              dsimp only at hrec

/-- The conservation invariant of the merge loop: with enough fuel and no
panic-triggering line, the multiset of emitted change events is exactly the
union of the pending events of all heap entries. -/
theorem mergeRun_conserv (fuel : Nat) : ∀ (heap : List Entry) (last : Option Nat),
    totalLines heap < fuel →
    (∀ e ∈ heap, e.lines ≠ [] ∧ ∀ l ∈ e.lines, okLine e.smap l = true) →
    changesM (mergeRun fuel heap last) = (heap.map entryEv).sum := by
  induction fuel with
  | zero => intro heap last hf _; omega
  | succ f ih =>
    intro heap last hf hok
    rw [mergeRun]
    cases hpm : pickMin heap with
    | none =>
      rw [pickMin_eq_none heap hpm]
      simp [changesM_nil]
    | some pr =>
      obtain ⟨e, rest⟩ := pr
      dsimp only
      have hperm := pickMin_perm heap e rest hpm
      have hmem : e ∈ heap := pickMin_mem heap e rest hpm
      obtain ⟨hne, hoke⟩ := hok e hmem
      have hrest_ok : ∀ x ∈ rest, x.lines ≠ [] ∧ ∀ l ∈ x.lines, okLine x.smap l = true :=
        fun x hx => hok x (pickMin_rest_mem heap e rest hpm x hx)
      have htl : totalLines heap = e.lines.length + totalLines rest := by
        unfold totalLines
        rw [(hperm.map (fun x => x.lines.length)).sum_eq]
        simp
      have hsum : (heap.map entryEv).sum = entryEv e + (rest.map entryEv).sum := by
        rw [(hperm.map entryEv).sum_eq]
        simp
      cases hl : e.lines with
      | nil => exact absurd hl hne
      | cons hd tl =>
        have hlen_e : e.lines.length = tl.length + 1 := by rw [hl]; rfl
        have hee : entryEv e = scanEv e.owner e.smap e.m e.value tl := by
          unfold entryEv
          rw [hl]
          rfl
        have hok_tl : ∀ l ∈ tl, okLine e.smap l = true := fun l hm =>
          hoke l (by rw [hl]; exact List.mem_cons_of_mem hd hm)
        have hce := consume_ev e.owner e.idx e.m e.smap tl e.value hok_tl
        cases hc : consume e.owner e.idx e.m e.smap e.value tl with
        | next outs v ls =>
          rw [hc] at hce
          obtain ⟨hev, hlen, hlsne, hokls⟩ := hce
          simp only [hc]
          rw [changesM_append, changesM_append, changesM_tsHeader, zero_add]
          have hfuel' : totalLines (⟨v, e.idx, e.owner, e.m, e.smap, ls⟩ :: rest) < f := by
            rw [totalLines_cons]
            simp only
            omega
          rw [ih (⟨v, e.idx, e.owner, e.m, e.smap, ls⟩ :: rest) (some e.value) hfuel'
            (by
              intro x hx
              rcases List.mem_cons.mp hx with hx | hx
              · rw [hx]; exact ⟨hlsne, hokls⟩
              · exact hrest_ok x hx)]
          rw [hsum, hee]
          simp only [List.map_cons, List.sum_cons]
          have hnew : entryEv ⟨v, e.idx, e.owner, e.m, e.smap, ls⟩ =
              scanEv e.owner e.smap e.m v (ls.drop 1) := rfl
          rw [hnew, ← hev, add_assoc]
        | done outs =>
          rw [hc] at hce
          simp only [hc]
          rw [changesM_append, changesM_append, changesM_tsHeader, zero_add]
          have hfuel' : totalLines rest < f := by omega
          rw [ih rest (some e.value) hfuel' hrest_ok, hsum, hee, hce]
        | abort outs =>
          rw [hc] at hce
          exact hce.elim

/-! ### Event conservation (C4): the section finder side -/

theorem scanEv_nil (o m : Nat) (smap : List (List Nat × List Nat)) (ts : Nat) :
    scanEv o smap m ts [] = 0 := rfl

theorem scanEv_cons_hash (o m : Nat) (smap : List (List Nat × List Nat)) (ts : Nat)
    (line : List Nat) (rest : List (List Nat)) (h35 : line.head? = some 35) :
    scanEv o smap m ts (line :: rest) =
      scanEv o smap m ((parse_u64 (line.drop 1)).toOption.getD 0 * m) rest := by
  rw [scanEv, if_pos h35]

theorem scanEv_cons_skip (o m : Nat) (smap : List (List Nat × List Nat)) (ts : Nat)
    (line : List Nat) (rest : List (List Nat)) (h35 : ¬ line.head? = some 35)
    (hsk : line.head? = some 36 ∨ line = []) :
    scanEv o smap m ts (line :: rest) = scanEv o smap m ts rest := by
  rw [scanEv, if_neg h35, if_pos hsk]

theorem scanEv_cons_other (o m : Nat) (smap : List (List Nat × List Nat)) (ts : Nat)
    (line : List Nat) (rest : List (List Nat)) (h35 : ¬ line.head? = some 35)
    (hsk : ¬ (line.head? = some 36 ∨ line = [])) :
    scanEv o smap m ts (line :: rest) =
      (match scanTrans smap line with
       | some out => {(o, ts, out)} + scanEv o smap m ts rest
       | none => scanEv o smap m ts rest) := by
  rw [scanEv, if_neg h35, if_neg hsk]

theorem tsAfter_cons (m ts : Nat) (line : List Nat) (rest : List (List Nat)) :
    tsAfter m ts (line :: rest) =
      tsAfter m (if line.head? = some 35 then (parse_u64 (line.drop 1)).toOption.getD 0 * m
        else ts) rest := rfl

theorem tsAfter_append (m : Nat) : ∀ (xs ys : List (List Nat)) (ts : Nat),
    tsAfter m ts (xs ++ ys) = tsAfter m (tsAfter m ts xs) ys := by
  intro xs
  induction xs with
  | nil => intro ys ts; rfl
  | cons x xs' ih =>
    intro ys ts
    rw [List.cons_append, tsAfter_cons, tsAfter_cons]
    exact ih ys _

theorem tsAfter_not_hash (m ts : Nat) (line : List Nat) (rest : List (List Nat))
    (h35 : ¬ line.head? = some 35) :
    tsAfter m ts (line :: rest) = tsAfter m ts rest := by
  rw [tsAfter_cons, if_neg h35]

theorem tsAfter_hash (m ts : Nat) (line : List Nat) (rest : List (List Nat))
    (h35 : line.head? = some 35) :
    tsAfter m ts (line :: rest) =
      tsAfter m ((parse_u64 (line.drop 1)).toOption.getD 0 * m) rest := by
  rw [tsAfter_cons, if_pos h35]

theorem scanEv_append (o m : Nat) (smap : List (List Nat × List Nat)) :
    ∀ (xs ys : List (List Nat)) (ts : Nat),
    scanEv o smap m ts (xs ++ ys) =
      scanEv o smap m ts xs + scanEv o smap m (tsAfter m ts xs) ys := by
  intro xs
  induction xs with
  | nil => intro ys ts; simp [scanEv_nil, tsAfter]
  | cons x xs' ih =>
    intro ys ts
    rw [List.cons_append]
    by_cases h35 : x.head? = some 35
    · rw [scanEv_cons_hash o m smap ts x _ h35, scanEv_cons_hash o m smap ts x xs' h35,
        tsAfter_hash m ts x xs' h35]
      exact ih ys _
    · by_cases hsk : x.head? = some 36 ∨ x = []
      · rw [scanEv_cons_skip o m smap ts x _ h35 hsk, scanEv_cons_skip o m smap ts x xs' h35 hsk,
          tsAfter_not_hash m ts x xs' h35]
        exact ih ys _
      · rw [scanEv_cons_other o m smap ts x _ h35 hsk, scanEv_cons_other o m smap ts x xs' h35 hsk,
          tsAfter_not_hash m ts x xs' h35]
        cases scanTrans smap x with
        | none => exact ih ys _
        | some out =>
          dsimp only
          rw [ih ys ts, add_assoc]

theorem scanEv_trailing_empty (o m : Nat) (smap : List (List Nat × List Nat))
    (xs : List (List Nat)) (ts : Nat) :
    scanEv o smap m ts (xs ++ [[]]) = scanEv o smap m ts xs := by
  rw [scanEv_append]
  have h0 : scanEv o smap m (tsAfter m ts xs) [[]] = 0 := by
    rw [scanEv_cons_skip o m smap _ [] [] (by simp) (Or.inr rfl), scanEv_nil]
  rw [h0, add_zero]

theorem scanEv_cons_split (o m : Nat) (smap : List (List Nat × List Nat)) (ts : Nat)
    (line : List Nat) (rest : List (List Nat)) (h35 : ¬ line.head? = some 35) :
    scanEv o smap m ts (line :: rest) =
      scanEv o smap m ts [line] + scanEv o smap m ts rest := by
  have h := scanEv_append o m smap [line] rest ts
  rw [List.singleton_append] at h
  rw [h, tsAfter_not_hash m ts line [] h35]
  rfl

theorem findSecGo_ev_some (m owner : Nat) (smap : List (List Nat × List Nat)) :
    ∀ (lines : List (List Nat)), (∀ l ∈ lines, okLine smap l = true) →
    ∀ (v last : Nat) (accRev : List (List Nat)) (ss : List Sect), accRev ≠ [] →
    tsAfter m v (accRev.reverse.drop 1) = last →
    findSecGo m owner lines (some (v, last, accRev)) = some ss →
    (ss.map (secEv smap m)).sum =
      scanEv owner smap m v (accRev.reverse.drop 1) + scanEv owner smap m last lines := by
  intro lines
  induction lines with
  | nil =>
    intro _ v last accRev ss _ _ hfs
    simp only [findSecGo, Option.some.injEq] at hfs
    subst hfs
    simp [secEv, scanEv_nil]
  | cons line rest ih =>
    intro hok v last accRev ss hne hts hfs
    have hokr : ∀ l ∈ rest, okLine smap l = true :=
      fun l hl => hok l (List.mem_cons_of_mem _ hl)
    have h1 : 1 ≤ accRev.reverse.length := by
      rw [List.length_reverse]
      exact List.length_pos.mpr hne
    have hX : (line :: accRev).reverse.drop 1 = accRev.reverse.drop 1 ++ [line] := by
      rw [List.reverse_cons]
      exact List.drop_append_of_le_length h1
    by_cases h35 : line.head? = some 35
    · have hokl := hok line (List.mem_cons_self _ _)
      rw [okLine, if_pos h35] at hokl
      obtain ⟨n, hn⟩ : ∃ n, parse_u64 (line.drop 1) = .ok n := by
        cases hpu : parse_u64 (line.drop 1) with
        | ok n => exact ⟨n, rfl⟩
        | error e => rw [hpu] at hokl; simp at hokl
      have hgetd : (parse_u64 (line.drop 1)).toOption.getD 0 = n := by
        rw [hn]; rfl
      simp only [findSecGo, if_pos h35, hn] at hfs
      rw [scanEv_cons_hash owner m smap last line rest h35, hgetd]
      by_cases hlt : n * m < last
      · rw [if_pos hlt] at hfs
        cases hrec : findSecGo m owner rest (some (n * m, n * m, [line])) with
        | none => rw [hrec] at hfs; exact absurd hfs (by simp)
        | some ss2 =>
          rw [hrec] at hfs
          dsimp only at hfs
          injection hfs with hfs
          subst hfs
          have hih := ih hokr (n * m) (n * m) [line] ss2 (by simp) rfl hrec
          simp only [List.map_cons, List.sum_cons, hih]
          have hsec : secEv smap m ⟨v, accRev.reverse ++ [[]], owner⟩ =
              scanEv owner smap m v (accRev.reverse.drop 1) := by
            simp only [secEv]
            rw [List.drop_append_of_le_length h1, scanEv_trailing_empty]
          rw [hsec]
          show _ + (scanEv owner smap m (n * m) ([] : List (List Nat)) + _) = _
          rw [scanEv_nil, zero_add]
      · rw [if_neg hlt] at hfs
        have hts2 : tsAfter m v ((line :: accRev).reverse.drop 1) = n * m := by
          rw [hX, tsAfter_append, hts, tsAfter_hash m last line [] h35, hgetd]
          rfl
        have hih := ih hokr v (n * m) (line :: accRev) ss (by simp) hts2 hfs
        rw [hih, hX, scanEv_append, hts, scanEv_cons_hash owner m smap last line [] h35,
          scanEv_nil, add_zero]
    · simp only [findSecGo, if_neg h35] at hfs
      have hts2 : tsAfter m v ((line :: accRev).reverse.drop 1) = last := by
        rw [hX, tsAfter_append, hts, tsAfter_not_hash m last line [] h35]
        rfl
      have hih := ih hokr v last (line :: accRev) ss (by simp) hts2 hfs
      rw [hih, hX, scanEv_append, hts, scanEv_cons_split owner m smap last line rest h35,
        add_assoc]

theorem findSecGo_ev_none (m owner : Nat) (smap : List (List Nat × List Nat)) :
    ∀ (lines : List (List Nat)), (∀ l ∈ lines, okLine smap l = true) →
    ∀ ss : List Sect, findSecGo m owner lines none = some ss →
    (ss.map (secEv smap m)).sum = bodyEvents owner smap m lines := by
  intro lines
  induction lines with
  | nil =>
    intro _ ss hfs
    simp only [findSecGo, Option.some.injEq] at hfs
    subst hfs
    simp [bodyEvents]
  | cons line rest ih =>
    intro hok ss hfs
    have hokr : ∀ l ∈ rest, okLine smap l = true :=
      fun l hl => hok l (List.mem_cons_of_mem _ hl)
    by_cases h35 : line.head? = some 35
    · have hokl := hok line (List.mem_cons_self _ _)
      rw [okLine, if_pos h35] at hokl
      obtain ⟨n, hn⟩ : ∃ n, parse_u64 (line.drop 1) = .ok n := by
        cases hpu : parse_u64 (line.drop 1) with
        | ok n => exact ⟨n, rfl⟩
        | error e => rw [hpu] at hokl; simp at hokl
      have hgetd : (parse_u64 (line.drop 1)).toOption.getD 0 = n := by
        rw [hn]; rfl
      simp only [findSecGo, if_pos h35, hn] at hfs
      have hih := findSecGo_ev_some m owner smap rest hokr (n * m) (n * m) [line] ss
        (by simp) rfl hfs
      rw [hih]
      show scanEv owner smap m (n * m) ([] : List (List Nat)) + _ = _
      rw [scanEv_nil, zero_add, bodyEvents, if_pos h35, hgetd]
    · simp only [findSecGo, if_neg h35] at hfs
      rw [bodyEvents, if_neg h35]
      exact ih hokr ss hfs

theorem findSecGo_struct (m owner : Nat) (P : List Nat → Prop) (hP : P []) :
    ∀ (lines : List (List Nat)), (∀ l ∈ lines, P l) →
    ∀ (cur : Option (Nat × Nat × List (List Nat))) (ss : List Sect),
    (∀ v last acc, cur = some (v, last, acc) → acc ≠ [] ∧ ∀ l ∈ acc, P l) →
    findSecGo m owner lines cur = some ss →
    ∀ s ∈ ss, s.owner = owner ∧ s.lines ≠ [] ∧ ∀ l ∈ s.lines, P l := by
  intro lines
  induction lines with
  | nil =>
    intro _ cur ss hcur hfs s hs
    cases cur with
    | none =>
      simp only [findSecGo, Option.some.injEq] at hfs
      subst hfs
      exact absurd hs (List.not_mem_nil s)
    | some st =>
      obtain ⟨v, last, acc⟩ := st
      obtain ⟨hane, hap⟩ := hcur v last acc rfl
      simp only [findSecGo, Option.some.injEq] at hfs
      subst hfs
      rcases List.mem_singleton.mp hs with rfl
      refine ⟨rfl, ?_, ?_⟩
      · intro h
        exact hane (List.reverse_eq_nil_iff.mp h)
      · intro l hl
        exact hap l (List.mem_reverse.mp hl)
  | cons line rest ih =>
    intro hok cur ss hcur hfs s hs
    have hokr : ∀ l ∈ rest, P l := fun l hl => hok l (List.mem_cons_of_mem _ hl)
    by_cases h35 : line.head? = some 35
    · cases hpu : parse_u64 (line.drop 1) with
      | error e =>
        simp only [findSecGo, if_pos h35, hpu] at hfs
        exact absurd hfs (by simp)
      | ok n =>
        simp only [findSecGo, if_pos h35, hpu] at hfs
        cases cur with
        | none =>
          refine ih hokr _ ss (fun v2 l2 a2 h => ?_) hfs s hs
          simp only [Option.some.injEq, Prod.mk.injEq] at h
          obtain ⟨-, -, rfl⟩ := h
          refine ⟨by simp, fun l hl => ?_⟩
          rw [List.mem_singleton.mp hl]
          exact hok line (List.mem_cons_self _ _)
        | some st =>
          obtain ⟨v, last, acc⟩ := st
          obtain ⟨hane, hap⟩ := hcur v last acc rfl
          dsimp only at hfs
          by_cases hlt : n * m < last
          · rw [if_pos hlt] at hfs
            cases hrec : findSecGo m owner rest (some (n * m, n * m, [line])) with
            | none => rw [hrec] at hfs; exact absurd hfs (by simp)
            | some ss2 =>
              rw [hrec] at hfs
              dsimp only at hfs
              injection hfs with hfs
              subst hfs
              rcases List.mem_cons.mp hs with rfl | hs2
              · refine ⟨rfl, by simp, fun l hl => ?_⟩
                rcases List.mem_append.mp hl with h | h
                · exact hap l (List.mem_reverse.mp h)
                · rcases List.mem_singleton.mp h with rfl
                  exact hP
              · refine ih hokr _ ss2 (fun v2 l2 a2 h => ?_) hrec s hs2
                simp only [Option.some.injEq, Prod.mk.injEq] at h
                obtain ⟨-, -, rfl⟩ := h
                refine ⟨by simp, fun l hl => ?_⟩
                rw [List.mem_singleton.mp hl]
                exact hok line (List.mem_cons_self _ _)
          · rw [if_neg hlt] at hfs
            refine ih hokr _ ss (fun v2 l2 a2 h => ?_) hfs s hs
            simp only [Option.some.injEq, Prod.mk.injEq] at h
            obtain ⟨-, -, rfl⟩ := h
            refine ⟨by simp, fun l hl => ?_⟩
            rcases List.mem_cons.mp hl with he | hl
            · rw [he]; exact hok line (List.mem_cons_self _ _)
            · exact hap l hl
    · simp only [findSecGo, if_neg h35] at hfs
      cases cur with
      | none =>
        exact ih hokr none ss (fun v2 l2 a2 h => Option.noConfusion h) hfs s hs
      | some st =>
        obtain ⟨v, last, acc⟩ := st
        obtain ⟨hane, hap⟩ := hcur v last acc rfl
        refine ih hokr _ ss (fun v2 l2 a2 h => ?_) hfs s hs
        simp only [Option.some.injEq, Prod.mk.injEq] at h
        obtain ⟨-, -, rfl⟩ := h
        refine ⟨by simp, fun l hl => ?_⟩
        rcases List.mem_cons.mp hl with he | hl
        · rw [he]; exact hok line (List.mem_cons_self _ _)
        · exact hap l hl

theorem findSectionsGo_ev (vcds0 : List VcdM) :
    ∀ (vcds : List VcdM) (k : Nat),
    (∀ j, j < vcds.length → vcds0.getD (k + j) defVcd = vcds.getD j defVcd) →
    (∀ v ∈ vcds, okBody v) →
    ∀ ss, findSectionsGo k vcds = some ss →
    (ss.map (fun s =>
      secEv (vcds0.getD s.owner defVcd).smap (vcds0.getD s.owner defVcd).m s)).sum =
      allBodyEvents k vcds := by
  intro vcds
  induction vcds with
  | nil =>
    intro k _ _ ss hfs
    simp only [findSectionsGo, Option.some.injEq] at hfs
    subst hfs
    simp [allBodyEvents]
  | cons v rest ih =>
    intro k hagree hok ss hfs
    simp only [findSectionsGo] at hfs
    cases h1 : findSecGo v.m k (splitNl v.body) none with
    | none => rw [h1] at hfs; exact absurd hfs (by simp)
    | some ss1 =>
      rw [h1] at hfs
      dsimp only at hfs
      cases h2 : findSectionsGo (k + 1) rest with
      | none => rw [h2] at hfs; exact absurd hfs (by simp)
      | some ss2 =>
        rw [h2] at hfs
        dsimp only at hfs
        injection hfs with hfs
        subst hfs
        rw [List.map_append, List.sum_append]
        have hown := findSecGo_struct v.m k (fun _ => True) trivial (splitNl v.body)
          (fun _ _ => trivial) none ss1 (fun _ _ _ h => Option.noConfusion h) h1
        have hv : vcds0.getD k defVcd = v := by
          have h0 := hagree 0 (by simp)
          simpa using h0
        have hmap1 : ss1.map (fun s =>
            secEv (vcds0.getD s.owner defVcd).smap (vcds0.getD s.owner defVcd).m s) =
            ss1.map (secEv v.smap v.m) := by
          apply List.map_congr_left
          intro s hsx
          obtain ⟨ho, -, -⟩ := hown s hsx
          rw [ho, hv]
        have hok0 : ∀ l ∈ splitNl v.body, okLine v.smap l = true :=
          hok v (List.mem_cons_self _ _)
        have hev1 := findSecGo_ev_none v.m k v.smap (splitNl v.body) hok0 ss1 h1
        have hagree2 : ∀ j, j < rest.length →
            vcds0.getD (k + 1 + j) defVcd = rest.getD j defVcd := by
          intro j hj
          have hj1 := hagree (j + 1) (by simpa using Nat.succ_lt_succ hj)
          rw [show k + (j + 1) = k + 1 + j by omega] at hj1
          simpa using hj1
        have hev2 := ih (k + 1) hagree2 (fun w hw => hok w (List.mem_cons_of_mem _ hw)) ss2 h2
        rw [hmap1, hev1, hev2, allBodyEvents]

theorem findSectionsGo_struct (vcds0 : List VcdM) :
    ∀ (vcds : List VcdM) (k : Nat),
    (∀ j, j < vcds.length → vcds0.getD (k + j) defVcd = vcds.getD j defVcd) →
    (∀ v ∈ vcds, okBody v) →
    ∀ ss, findSectionsGo k vcds = some ss →
    ∀ s ∈ ss, s.lines ≠ [] ∧
      ∀ l ∈ s.lines, okLine (vcds0.getD s.owner defVcd).smap l = true := by
  intro vcds
  induction vcds with
  | nil =>
    intro k _ _ ss hfs s hs
    simp only [findSectionsGo, Option.some.injEq] at hfs
    subst hfs
    exact absurd hs (List.not_mem_nil s)
  | cons v rest ih =>
    intro k hagree hok ss hfs s hs
    simp only [findSectionsGo] at hfs
    cases h1 : findSecGo v.m k (splitNl v.body) none with
    | none => rw [h1] at hfs; exact absurd hfs (by simp)
    | some ss1 =>
      rw [h1] at hfs
      dsimp only at hfs
      cases h2 : findSectionsGo (k + 1) rest with
      | none => rw [h2] at hfs; exact absurd hfs (by simp)
      | some ss2 =>
        rw [h2] at hfs
        dsimp only at hfs
        injection hfs with hfs
        subst hfs
        have hv : vcds0.getD k defVcd = v := by
          have h0 := hagree 0 (by simp)
          simpa using h0
        rcases List.mem_append.mp hs with hs1 | hs2
        · have hstr := findSecGo_struct v.m k (fun l => okLine v.smap l = true)
            (okLine_nil v.smap) (splitNl v.body) (hok v (List.mem_cons_self _ _)) none ss1
            (fun _ _ _ h => Option.noConfusion h) h1
          obtain ⟨ho, hne2, hP⟩ := hstr s hs1
          refine ⟨hne2, ?_⟩
          rw [ho, hv]
          exact hP
        · have hagree2 : ∀ j, j < rest.length →
              vcds0.getD (k + 1 + j) defVcd = rest.getD j defVcd := by
            intro j hj
            have hj1 := hagree (j + 1) (by simpa using Nat.succ_lt_succ hj)
            rw [show k + (j + 1) = k + 1 + j by omega] at hj1
            simpa using hj1
          exact ih (k + 1) hagree2 (fun w hw => hok w (List.mem_cons_of_mem _ hw)) ss2 h2 s hs2

theorem enum_map_eval {α β : Type _} (l : List α) (g : Nat × α → β) (f : α → β)
    (h : ∀ p : Nat × α, g p = f p.2) : l.enum.map g = l.map f := by
  have h1 : l.enum.map g = l.enum.map (f ∘ Prod.snd) :=
    List.map_congr_left (fun p _ => h p)
  rw [h1, ← List.map_map, List.enum_map_snd]

theorem initHeap_ev (vcds : List VcdM) (secs : List Sect) :
    ((initHeap vcds secs).map entryEv).sum =
      (secs.map (fun s =>
        secEv (vcds.getD s.owner defVcd).smap (vcds.getD s.owner defVcd).m s)).sum := by
  rw [initHeap, List.map_map]
  exact congrArg List.sum (enum_map_eval secs _
    (fun s => secEv (vcds.getD s.owner defVcd).smap (vcds.getD s.owner defVcd).m s)
    (fun p => rfl))

theorem scanEv_fst (o m : Nat) (smap : List (List Nat × List Nat)) :
    ∀ (lines : List (List Nat)) (ts : Nat), ∀ p ∈ scanEv o smap m ts lines, p.1 = o := by
  intro lines
  induction lines with
  | nil =>
    intro ts p hp
    rw [scanEv_nil] at hp
    exact absurd hp (Multiset.not_mem_zero p)
  | cons line rest ih =>
    intro ts p hp
    by_cases h35 : line.head? = some 35
    · rw [scanEv_cons_hash o m smap ts line rest h35] at hp
      exact ih _ p hp
    · by_cases hsk : line.head? = some 36 ∨ line = []
      · rw [scanEv_cons_skip o m smap ts line rest h35 hsk] at hp
        exact ih _ p hp
      · rw [scanEv_cons_other o m smap ts line rest h35 hsk] at hp
        cases htr : scanTrans smap line with
        | none => rw [htr] at hp; exact ih _ p hp
        | some out =>
          rw [htr] at hp
          dsimp only at hp
          rcases Multiset.mem_add.mp hp with h | h
          · rw [Multiset.mem_singleton.mp h]
          · exact ih _ p h

theorem bodyEvents_fst (o : Nat) (smap : List (List Nat × List Nat)) (m : Nat) :
    ∀ lines : List (List Nat), ∀ p ∈ bodyEvents o smap m lines, p.1 = o := by
  intro lines
  induction lines with
  | nil =>
    intro p hp
    exact absurd hp (by simp [bodyEvents])
  | cons line rest ih =>
    intro p hp
    simp only [bodyEvents] at hp
    by_cases h35 : line.head? = some 35
    · rw [if_pos h35] at hp
      exact scanEv_fst o m smap rest _ p hp
    · rw [if_neg h35] at hp
      exact ih p hp

theorem allBodyEvents_bound : ∀ (vcds : List VcdM) (k : Nat), ∀ p ∈ allBodyEvents k vcds,
    k ≤ p.1 ∧ p.1 < k + vcds.length := by
  intro vcds
  induction vcds with
  | nil =>
    intro k p hp
    exact absurd hp (by simp [allBodyEvents])
  | cons v rest ih =>
    intro k p hp
    simp only [allBodyEvents] at hp
    rcases Multiset.mem_add.mp hp with h | h
    · have h1 := bodyEvents_fst k v.smap v.m (splitNl v.body) p h
      simp only [List.length_cons]
      omega
    · obtain ⟨h1, h2⟩ := ih (k + 1) p h
      simp only [List.length_cons]
      omega

theorem allBodyEvents_filter : ∀ (vcds : List VcdM) (k i : Nat), i < vcds.length →
    Multiset.filter (fun p => p.1 = k + i) (allBodyEvents k vcds) =
      bodyEvents (k + i) (vcds.getD i defVcd).smap (vcds.getD i defVcd).m
        (splitNl (vcds.getD i defVcd).body) := by
  intro vcds
  induction vcds with
  | nil => intro k i hi; simp at hi
  | cons v rest ih =>
    intro k i hi
    simp only [allBodyEvents]
    rw [Multiset.filter_add]
    cases i with
    | zero =>
      have h1 : Multiset.filter (fun p => p.1 = k + 0)
          (bodyEvents k v.smap v.m (splitNl v.body)) =
          bodyEvents k v.smap v.m (splitNl v.body) := by
        apply Multiset.filter_eq_self.mpr
        intro p hp
        rw [bodyEvents_fst k v.smap v.m (splitNl v.body) p hp]
        omega
      have h2 : Multiset.filter (fun p => p.1 = k + 0) (allBodyEvents (k + 1) rest) = 0 := by
        apply Multiset.filter_eq_nil.mpr
        intro p hp
        obtain ⟨hb, -⟩ := allBodyEvents_bound rest (k + 1) p hp
        omega
      rw [h1, h2, add_zero]
      simp
    | succ j =>
      have h1 : Multiset.filter (fun p => p.1 = k + (j + 1))
          (bodyEvents k v.smap v.m (splitNl v.body)) = 0 := by
        apply Multiset.filter_eq_nil.mpr
        intro p hp
        rw [bodyEvents_fst k v.smap v.m (splitNl v.body) p hp]
        omega
      have hj : j < rest.length := by
        simp only [List.length_cons] at hi
        omega
      have h2 := ih (k + 1) j hj
      rw [h1, zero_add, show k + (j + 1) = k + 1 + j by omega, List.getD_cons_succ]
      exact h2

theorem merge_conservation (fuel : Nat) (vcds : List VcdM) (secs : List Sect)
    (hfs : findSections vcds = some secs)
    (hok : ∀ v ∈ vcds, okBody v)
    (hf : totalLines (initHeap vcds secs) < fuel) :
    changesM (mergeRun fuel (initHeap vcds secs) none) = allBodyEvents 0 vcds := by
  have hagree : ∀ j, j < vcds.length → vcds.getD (0 + j) defVcd = vcds.getD j defVcd := by
    intro j _
    rw [Nat.zero_add]
  have hstr := findSectionsGo_struct vcds vcds 0 hagree hok secs hfs
  have hheap : ∀ e ∈ initHeap vcds secs,
      e.lines ≠ [] ∧ ∀ l ∈ e.lines, okLine e.smap l = true := by
    intro e he
    obtain ⟨s, hsmem, hval, hown, hm, hsmap, hlines⟩ := initHeap_mem vcds secs e he
    obtain ⟨hne2, hok2⟩ := hstr s hsmem
    refine ⟨by rw [hlines]; exact hne2, ?_⟩
    intro l hl
    rw [hsmap]
    exact hok2 l (by rwa [hlines] at hl)
  rw [mergeRun_conserv fuel (initHeap vcds secs) none hf hheap, initHeap_ev]
  exact findSectionsGo_ev vcds vcds 0 hagree hok secs hfs

/-- C4 counterexample: a value-change line *before* the first `#` timestamp
line of a body is assigned to no section by `find_sections` and is
therefore never emitted.  Body `0!\n#5\n1!\n` holds two value-change lines
(neither a `$` directive nor empty), yet the merged output holds exactly
one emitted change, so the claimed multiset equality "including
value-change lines that precede the first `#` timestamp line" fails. -/
theorem C4_counterexample :
    mergeBody 4 [⟨1, [([33, 0, 0, 0], [34, 0, 0, 0])], s2b "0!\n#5\n1!\n"⟩] =
      some [OutLine.ts 5, OutLine.change 0 0 5 [49, 34]] ∧
    (splitNl (s2b "0!\n#5\n1!\n")).countP
      (fun l => !(l.head? == some 35 || l.head? == some 36 || l.isEmpty)) = 2 ∧
    (changesM [OutLine.ts 5, OutLine.change 0 0 5 [49, 34]]).card = 1 := by
  decide

/-- C4 (corrected): for every panic-free run, the multiset of emitted
value-change events, keyed by `(owning input, scaled timestamp, rewritten
line bytes)`, equals the union over the inputs of the events of the body
lines *from the first `#` timestamp line onwards* — `$` directive lines
and empty lines excluded, and also excluding the value-change lines that
precede the first `#` line of a body, which `find_sections` assigns to no
section; restricted per input, the emitted events of input `i` are exactly
the post-first-`#` events of body `i`. -/
theorem C4_event_conservation (fuel : Nat) (vcds : List VcdM) (secs : List Sect)
    (hfs : findSections vcds = some secs)
    (hok : ∀ v ∈ vcds, okBody v)
    (hf : totalLines (initHeap vcds secs) < fuel) :
    changesM (mergeRun fuel (initHeap vcds secs) none) = allBodyEvents 0 vcds ∧
    ∀ i, i < vcds.length →
      Multiset.filter (fun p => p.1 = i)
        (changesM (mergeRun fuel (initHeap vcds secs) none)) =
        bodyEvents i (vcds.getD i defVcd).smap (vcds.getD i defVcd).m
          (splitNl (vcds.getD i defVcd).body) := by
  have hc := merge_conservation fuel vcds secs hfs hok hf
  refine ⟨hc, fun i hi => ?_⟩
  rw [hc]
  have hfil := allBodyEvents_filter vcds 0 i hi
  rw [Nat.zero_add] at hfil
  exact hfil

theorem C4_event_conservation_witness :
    changesM (mergeRun 4 (initHeap
        ([⟨1, [([33, 0, 0, 0], [34, 0, 0, 0])], s2b "#5\n1!\n"⟩] : List VcdM)
        [⟨5, [[35, 53], [49, 33], []], 0⟩]) none) =
      allBodyEvents 0 ([⟨1, [([33, 0, 0, 0], [34, 0, 0, 0])], s2b "#5\n1!\n"⟩] : List VcdM) ∧
    ∀ i, i < ([⟨1, [([33, 0, 0, 0], [34, 0, 0, 0])], s2b "#5\n1!\n"⟩] : List VcdM).length →
      Multiset.filter (fun p => p.1 = i)
        (changesM (mergeRun 4 (initHeap
          ([⟨1, [([33, 0, 0, 0], [34, 0, 0, 0])], s2b "#5\n1!\n"⟩] : List VcdM)
          [⟨5, [[35, 53], [49, 33], []], 0⟩]) none)) =
        bodyEvents i
          (([⟨1, [([33, 0, 0, 0], [34, 0, 0, 0])], s2b "#5\n1!\n"⟩] : List VcdM).getD i defVcd).smap
          (([⟨1, [([33, 0, 0, 0], [34, 0, 0, 0])], s2b "#5\n1!\n"⟩] : List VcdM).getD i defVcd).m
          (splitNl (([⟨1, [([33, 0, 0, 0], [34, 0, 0, 0])], s2b "#5\n1!\n"⟩] : List VcdM).getD i
            defVcd).body) :=
  C4_event_conservation 4 _ _ (by decide) (by decide) (by decide)

/-! ### The timescale law (C5): gcd reconciliation and emitted timestamps -/

theorem gcd_code_eq (m : Nat) : ∀ n : Nat, 0 < n → gcd_code n m = Nat.gcd n m := by
  induction m using Nat.strong_induction_on with
  | _ m ih =>
    intro n hn
    rw [gcd_code]
    by_cases hm0 : m = 0
    · rw [if_pos hm0, hm0, Nat.gcd_zero_right]
    · rw [if_neg hm0]
      by_cases hlt : m < n
      · rw [if_pos hlt]
        have hrec := ih (n % m) (Nat.mod_lt n (Nat.pos_of_ne_zero hm0)) m
          (Nat.pos_of_ne_zero hm0)
        rw [hrec, Nat.gcd_comm m (n % m), ← Nat.gcd_rec m n, Nat.gcd_comm m n]
      · rw [if_neg hlt, if_neg (Nat.pos_iff_ne_zero.mp hn)]
        have hmn : m % n < m :=
          Nat.lt_of_lt_of_le (Nat.mod_lt m hn) (Nat.le_of_not_lt hlt)
        have hrec := ih (m % n) hmn n hn
        rw [hrec, Nat.gcd_comm n (m % n), ← Nat.gcd_rec n m]

theorem foldl_gcd_code (l : List Nat) : ∀ acc : Nat, 0 < acc → (∀ f ∈ l, 0 < f) →
    l.foldl gcd_code acc = l.foldl Nat.gcd acc := by
  induction l with
  | nil => intro acc _ _; rfl
  | cons f rest ih =>
    intro acc hacc hl
    rw [List.foldl_cons, List.foldl_cons, gcd_code_eq f acc hacc]
    exact ih (Nat.gcd acc f) (Nat.gcd_pos_of_pos_left f hacc)
      (fun x hx => hl x (List.mem_cons_of_mem _ hx))

theorem reconcile_eq (f0 : Nat) (rest : List Nat)
    (hl : ∀ f ∈ f0 :: rest, 0 < f) :
    (reconcile (f0 :: rest)).1 = (f0 :: rest).foldl Nat.gcd 0 ∧
    (reconcile (f0 :: rest)).2 =
      (f0 :: rest).map (fun f => f / (f0 :: rest).foldl Nat.gcd 0) := by
  have h0 : 0 < f0 := hl f0 (List.mem_cons_self _ _)
  have key : (f0 :: rest).foldl gcd_code f0 = (f0 :: rest).foldl Nat.gcd 0 := by
    rw [List.foldl_cons, List.foldl_cons]
    have hgf : gcd_code f0 f0 = f0 := by
      rw [gcd_code_eq f0 f0 h0, Nat.gcd_self]
    rw [hgf, Nat.gcd_zero_left]
    exact foldl_gcd_code rest f0 h0 (fun f hf => hl f (List.mem_cons_of_mem _ hf))
  refine ⟨key, ?_⟩
  show (f0 :: rest).map (fun f => f / (f0 :: rest).foldl gcd_code f0) = _
  rw [key]

theorem scanEv_src (o m : Nat) (smap : List (List Nat × List Nat)) :
    ∀ (lines : List (List Nat)) (ts : Nat), ∀ p ∈ scanEv o smap m ts lines,
    p.2.1 = ts ∨ ∃ line ∈ lines, line.head? = some 35 ∧
      p.2.1 = (parse_u64 (line.drop 1)).toOption.getD 0 * m := by
  intro lines
  induction lines with
  | nil =>
    intro ts p hp
    rw [scanEv_nil] at hp
    exact absurd hp (Multiset.not_mem_zero p)
  | cons line rest ih =>
    intro ts p hp
    by_cases h35 : line.head? = some 35
    · rw [scanEv_cons_hash o m smap ts line rest h35] at hp
      rcases ih _ p hp with h | ⟨l2, hl2, h2a, h2b⟩
      · exact Or.inr ⟨line, List.mem_cons_self _ _, h35, h⟩
      · exact Or.inr ⟨l2, List.mem_cons_of_mem _ hl2, h2a, h2b⟩
    · by_cases hsk : line.head? = some 36 ∨ line = []
      · rw [scanEv_cons_skip o m smap ts line rest h35 hsk] at hp
        rcases ih _ p hp with h | ⟨l2, hl2, h2a, h2b⟩
        · exact Or.inl h
        · exact Or.inr ⟨l2, List.mem_cons_of_mem _ hl2, h2a, h2b⟩
      · rw [scanEv_cons_other o m smap ts line rest h35 hsk] at hp
        cases htr : scanTrans smap line with
        | none =>
          rw [htr] at hp
          rcases ih _ p hp with h | ⟨l2, hl2, h2a, h2b⟩
          · exact Or.inl h
          · exact Or.inr ⟨l2, List.mem_cons_of_mem _ hl2, h2a, h2b⟩
        | some out =>
          rw [htr] at hp
          dsimp only at hp
          rcases Multiset.mem_add.mp hp with h | h
          · rw [Multiset.mem_singleton.mp h]
            exact Or.inl rfl
          · rcases ih _ p h with h2 | ⟨l2, hl2, h2a, h2b⟩
            · exact Or.inl h2
            · exact Or.inr ⟨l2, List.mem_cons_of_mem _ hl2, h2a, h2b⟩

theorem bodyEvents_src (o : Nat) (smap : List (List Nat × List Nat)) (m : Nat) :
    ∀ lines : List (List Nat), ∀ p ∈ bodyEvents o smap m lines,
    ∃ line ∈ lines, line.head? = some 35 ∧
      p.2.1 = (parse_u64 (line.drop 1)).toOption.getD 0 * m := by
  intro lines
  induction lines with
  | nil =>
    intro p hp
    exact absurd hp (by simp [bodyEvents])
  | cons line rest ih =>
    intro p hp
    simp only [bodyEvents] at hp
    by_cases h35 : line.head? = some 35
    · rw [if_pos h35] at hp
      rcases scanEv_src o m smap rest _ p hp with h | ⟨l2, hl2, h2a, h2b⟩
      · exact ⟨line, List.mem_cons_self _ _, h35, h⟩
      · exact ⟨l2, List.mem_cons_of_mem _ hl2, h2a, h2b⟩
    · rw [if_neg h35] at hp
      obtain ⟨l2, hl2, h2⟩ := ih p hp
      exact ⟨l2, List.mem_cons_of_mem _ hl2, h2⟩

theorem allBodyEvents_src : ∀ (vcds : List VcdM) (k : Nat), ∀ p ∈ allBodyEvents k vcds,
    ∃ line ∈ splitNl (vcds.getD (p.1 - k) defVcd).body, line.head? = some 35 ∧
      p.2.1 = (parse_u64 (line.drop 1)).toOption.getD 0 * (vcds.getD (p.1 - k) defVcd).m := by
  intro vcds
  induction vcds with
  | nil =>
    intro k p hp
    exact absurd hp (by simp [allBodyEvents])
  | cons v rest ih =>
    intro k p hp
    simp only [allBodyEvents] at hp
    rcases Multiset.mem_add.mp hp with h | h
    · have hfst := bodyEvents_fst k v.smap v.m (splitNl v.body) p h
      have hz : p.1 - k = 0 := by omega
      rw [hz, List.getD_cons_zero]
      exact bodyEvents_src k v.smap v.m (splitNl v.body) p h
    · obtain ⟨hb, -⟩ := allBodyEvents_bound rest (k + 1) p h
      have hidx : p.1 - k = (p.1 - (k + 1)) + 1 := by omega
      rw [hidx, List.getD_cons_succ]
      exact ih (k + 1) p h

theorem getD_map_eq {α β γ : Type _} :
    ∀ (l1 : List α) (l2 : List γ) (f : α → β) (g2 : γ → β), l1.map f = l2.map g2 →
    ∀ i, i < l1.length → ∀ (d1 : α) (d2 : γ), f (l1.getD i d1) = g2 (l2.getD i d2) := by
  intro l1
  induction l1 with
  | nil => intro l2 f g2 _ i hi; simp at hi
  | cons a l1x ih =>
    intro l2 f g2 h i hi d1 d2
    cases l2 with
    | nil => simp at h
    | cons c l2x =>
      simp only [List.map_cons, List.cons.injEq] at h
      cases i with
      | zero =>
        rw [List.getD_cons_zero, List.getD_cons_zero]
        exact h.1
      | succ j =>
        rw [List.getD_cons_succ, List.getD_cons_succ]
        exact ih l2x f g2 h.2 j (by simp only [List.length_cons] at hi; omega) d1 d2

/-- C5: for parsed inputs with positive femtosecond timescales
`fs = f0 :: rest`, the reconciler computes `g = gcd` of all of them
(`fold` over the list seeded with `fs[0]`, the Rust loop `gcd` agreeing
with mathematical gcd on positive arguments) and replaces each input's
timescale field with `f_i / g`; and in every panic-free merge run over
inputs whose multipliers are those quotients, every emitted value-change
event of input `i` carries a timestamp `n * (f_i / g)` where `n` is the
raw decimal value of a `#` timestamp line of input `i`'s body. -/
theorem C5_timescale_law (fs : List Nat) (f0 : Nat) (rest : List Nat) (g : Nat)
    (hfs0 : fs = f0 :: rest) (hpos : ∀ f ∈ fs, 0 < f)
    (hg : fs.foldl Nat.gcd 0 = g)
    (fuel : Nat) (vcds : List VcdM) (secs : List Sect)
    (hm : vcds.map VcdM.m = fs.map (fun f => f / g))
    (hsec : findSections vcds = some secs)
    (hok : ∀ v ∈ vcds, okBody v)
    (hf : totalLines (initHeap vcds secs) < fuel) :
    (reconcile fs).1 = g ∧
    (reconcile fs).2 = fs.map (fun f => f / g) ∧
    ∀ p ∈ changesM (mergeRun fuel (initHeap vcds secs) none),
      p.1 < fs.length ∧
      ∃ line ∈ splitNl (vcds.getD p.1 defVcd).body, line.head? = some 35 ∧
        p.2.1 = (parse_u64 (line.drop 1)).toOption.getD 0 * (fs.getD p.1 0 / g) := by
  subst hfs0
  subst hg
  obtain ⟨h1, h2⟩ := reconcile_eq f0 rest hpos
  refine ⟨h1, h2, ?_⟩
  intro p hp
  rw [merge_conservation fuel vcds secs hsec hok hf] at hp
  obtain ⟨hb0, hblt⟩ := allBodyEvents_bound vcds 0 p hp
  have hplen : p.1 < vcds.length := by omega
  have hlen : vcds.length = (f0 :: rest).length := by
    have hq := congrArg List.length hm
    simpa using hq
  refine ⟨by omega, ?_⟩
  have hsrc := allBodyEvents_src vcds 0 p hp
  rw [Nat.sub_zero] at hsrc
  obtain ⟨line, hline, h35, hts⟩ := hsrc
  refine ⟨line, hline, h35, ?_⟩
  rw [hts]
  congr 1
  exact getD_map_eq vcds (f0 :: rest) VcdM.m
    (fun f => f / (f0 :: rest).foldl Nat.gcd 0) hm p.1 hplen defVcd 0

theorem C5_timescale_law_witness :
    (reconcile [2000, 3000]).1 = 1000 ∧
    (reconcile [2000, 3000]).2 = [2000, 3000].map (fun f => f / 1000) ∧
    ∀ p ∈ changesM (mergeRun 7 (initHeap
        ([⟨2, [([33, 0, 0, 0], [33, 0, 0, 0])], s2b "#1\n0!\n"⟩,
          ⟨3, [([34, 0, 0, 0], [34, 0, 0, 0])], s2b "#2\n1\"\n"⟩] : List VcdM)
        [⟨2, [[35, 49], [48, 33], []], 0⟩, ⟨6, [[35, 50], [49, 34], []], 1⟩]) none),
      p.1 < [2000, 3000].length ∧
      ∃ line ∈ splitNl (([⟨2, [([33, 0, 0, 0], [33, 0, 0, 0])], s2b "#1\n0!\n"⟩,
          ⟨3, [([34, 0, 0, 0], [34, 0, 0, 0])], s2b "#2\n1\"\n"⟩] : List VcdM).getD p.1
            defVcd).body,
        line.head? = some 35 ∧
        p.2.1 = (parse_u64 (line.drop 1)).toOption.getD 0 *
          ([2000, 3000].getD p.1 0 / 1000) :=
  C5_timescale_law [2000, 3000] 2000 [3000] 1000 rfl (by decide) (by decide) 7 _ _
    (by decide) (by decide) (by decide) (by decide)

end VcdMerger
